import Mathlib

/-!
Verification development for the unipage web-scraping repository.

The Python sources are shallowly embedded: pure helpers become Lean
functions, Python exceptions become `Option`/`Except`, the browser, the
AI completion endpoint and the filesystem appear as explicit inputs.
-/

set_option maxHeartbeats 1000000

/-- Named characters, kept as constants so that escape handling is explicit. -/
def qCh : Char := Char.ofNat 34

def bsCh : Char := Char.ofNat 92

def obCh : Char := Char.ofNat 123

def cbCh : Char := Char.ofNat 125

def nlCh : Char := Char.ofNat 10

def tabCh : Char := Char.ofNat 9

def crCh : Char := Char.ofNat 13

def ffCh : Char := Char.ofNat 12

def vtCh : Char := Char.ofNat 11

def bspCh : Char := Char.ofNat 8

/-- JSON documents, as produced and consumed by the scraper's record I/O
(`json.dump` / `json.loads`).  Numbers are modelled as integers. -/
inductive Json where
  | null : Json
  | bool (b : Bool) : Json
  | num (n : Int) : Json
  | str (s : String) : Json
  | arr (xs : List Json) : Json
  | obj (fields : List (String × Json)) : Json
deriving Repr

mutual

def Json.beq : Json → Json → Bool
  | .null, .null => true
  | .bool a, .bool b => a == b
  | .num a, .num b => a == b
  | .str a, .str b => a == b
  | .arr a, .arr b => Json.beqList a b
  | .obj a, .obj b => Json.beqFields a b
  | _, _ => false

def Json.beqList : List Json → List Json → Bool
  | [], [] => true
  | x :: xs, y :: ys => Json.beq x y && Json.beqList xs ys
  | _, _ => false

def Json.beqFields : List (String × Json) → List (String × Json) → Bool
  | [], [] => true
  | f :: fs, g :: gs => f.1 == g.1 && Json.beq f.2 g.2 && Json.beqFields fs gs
  | _, _ => false

end

mutual

theorem Json.beq_iff : ∀ a b : Json, Json.beq a b = true ↔ a = b
  | .null, b => by cases b <;> simp [Json.beq]
  | .bool x, b => by cases b <;> simp [Json.beq]
  | .num x, b => by cases b <;> simp [Json.beq]
  | .str x, b => by cases b <;> simp [Json.beq]
  | .arr xs, b => by
      cases b <;> simp [Json.beq]
      exact Json.beqList_iff xs _
  | .obj fs, b => by
      cases b <;> simp [Json.beq]
      exact Json.beqFields_iff fs _

theorem Json.beqList_iff : ∀ a b : List Json, Json.beqList a b = true ↔ a = b
  | [], b => by cases b <;> simp [Json.beqList]
  | x :: xs, b => by
      cases b with
      | nil => simp [Json.beqList]
      | cons y ys =>
          simp only [Json.beqList, Bool.and_eq_true, List.cons.injEq]
          rw [Json.beq_iff x y, Json.beqList_iff xs ys]

theorem Json.beqFields_iff : ∀ a b : List (String × Json), Json.beqFields a b = true ↔ a = b
  | [], b => by cases b <;> simp [Json.beqFields]
  | f :: fs, b => by
      cases b with
      | nil => simp [Json.beqFields]
      | cons g gs =>
          simp only [Json.beqFields, Bool.and_eq_true, List.cons.injEq,
            Json.beq_iff f.2 g.2, Json.beqFields_iff fs gs, beq_iff_eq,
            Prod.ext_iff]
          try tauto

end

instance : DecidableEq Json := fun a b =>
  decidable_of_iff (Json.beq a b = true) (Json.beq_iff a b)

mutual

/-- Size measure used to drive induction over `Json` trees. -/
def Json.size : Json → Nat
  | .arr xs => Json.sizeList xs + 1
  | .obj fs => Json.sizeFields fs + 1
  | _ => 1

def Json.sizeList : List Json → Nat
  | [] => 0
  | x :: xs => Json.size x + Json.sizeList xs + 1

def Json.sizeFields : List (String × Json) → Nat
  | [] => 0
  | f :: fs => Json.size f.2 + Json.sizeFields fs + 1

end

/-- Stable insertion into a key-sorted field list (model of Python's stable
`sorted` on dict items, used by `json.dump(..., sort_keys=True)`). -/
def insField (p : String × Json) : List (String × Json) → List (String × Json)
  | [] => [p]
  | q :: qs => if p.1 < q.1 then p :: q :: qs else q :: insField p qs

def sortFields : List (String × Json) → List (String × Json)
  | [] => []
  | p :: ps => insField p (sortFields ps)

mutual

/-- Recursively sort every object's fields by key: the tree shape that
`json.dump(..., sort_keys=True)` serialises. -/
def Json.sortKeys : Json → Json
  | .null => .null
  | .bool b => .bool b
  | .num n => .num n
  | .str s => .str s
  | .arr xs => .arr (Json.sortKeysList xs)
  | .obj fs => .obj (sortFields (Json.sortKeysFields fs))

def Json.sortKeysList : List Json → List Json
  | [] => []
  | x :: xs => Json.sortKeys x :: Json.sortKeysList xs

def Json.sortKeysFields : List (String × Json) → List (String × Json)
  | [] => []
  | f :: fs => (f.1, Json.sortKeys f.2) :: Json.sortKeysFields fs

end

/-- Hex digit character (lowercase), as `json.dump` emits in control escapes. -/
def hexDig (n : Nat) : Char := if n < 10 then Char.ofNat (48 + n) else Char.ofNat (87 + n)

/-- Escape one character the way `json.dump(..., ensure_ascii=False)` does. -/
def escChar (c : Char) : List Char :=
  if c = qCh then [bsCh, qCh]
  else if c = bsCh then [bsCh, bsCh]
  else if c = nlCh then [bsCh, 'n']
  else if c = tabCh then [bsCh, 't']
  else if c = crCh then [bsCh, 'r']
  else if c = ffCh then [bsCh, 'f']
  else if c = bspCh then [bsCh, 'b']
  else if c.toNat < 32 then [bsCh, 'u', '0', '0', hexDig (c.toNat / 16), hexDig (c.toNat % 16)]
  else [c]

def escChars : List Char → List Char
  | [] => []
  | c :: cs => escChar c ++ escChars cs

/-- A JSON string literal: quote, escaped body, quote. -/
def strChars (s : String) : List Char := qCh :: (escChars s.data ++ [qCh])

def digCh (d : Nat) : Char := Char.ofNat (48 + d)

def natChars (n : Nat) : List Char :=
  if n = 0 then ['0'] else ((Nat.digits 10 n).map digCh).reverse

def intChars (n : Int) : List Char :=
  if n < 0 then '-' :: natChars n.natAbs else natChars n.toNat

def indentChars (n : Nat) : List Char := List.replicate n ' '

mutual

/-- Serialise a JSON value at indentation level `ind`, following the layout of
`json.dump(data, f, indent=2)`: containers open with a newline, items sit at
`ind + 2`, the closing bracket returns to `ind`. -/
def dumpVal (ind : Nat) : Json → List Char
  | .null => "null".data
  | .bool true => "true".data
  | .bool false => "false".data
  | .num n => intChars n
  | .str s => strChars s
  | .arr [] => '[' :: [']']
  | .arr (x :: xs) =>
      '[' :: nlCh :: (dumpElems (ind + 2) x xs ++ nlCh :: (indentChars ind ++ [']']))
  | .obj [] => obCh :: [cbCh]
  | .obj (f :: fs) =>
      obCh :: nlCh :: (dumpFields (ind + 2) f fs ++ nlCh :: (indentChars ind ++ [cbCh]))
termination_by j => Json.size j
decreasing_by all_goals (simp [Json.size, Json.sizeList, Json.sizeFields]; try omega)

def dumpElems (ind : Nat) (x : Json) : List Json → List Char
  | [] => indentChars ind ++ dumpVal ind x
  | y :: ys => indentChars ind ++ dumpVal ind x ++ ',' :: nlCh :: dumpElems ind y ys
termination_by l => Json.size x + Json.sizeList l + 1
decreasing_by all_goals (simp [Json.size, Json.sizeList, Json.sizeFields]; try omega)

def dumpFields (ind : Nat) (f : String × Json) : List (String × Json) → List Char
  | [] => indentChars ind ++ strChars f.1 ++ ':' :: ' ' :: dumpVal ind f.2
  | g :: gs =>
      indentChars ind ++ strChars f.1 ++ ':' :: ' ' :: dumpVal ind f.2 ++
        ',' :: nlCh :: dumpFields ind g gs
termination_by l => Json.size f.2 + Json.sizeFields l + 1
decreasing_by all_goals (simp [Json.size, Json.sizeList, Json.sizeFields]; try omega)

end

/-- `json.dump(data_dict, f, indent=2, ensure_ascii=False, sort_keys=True)`:
the file contents written by the `DataWriter`. -/
def Json.dumps (j : Json) : String := ⟨dumpVal 0 (Json.sortKeys j)⟩

def isWsCh (c : Char) : Bool := c = ' ' || c = nlCh || c = tabCh || c = crCh

def skipWs (s : List Char) : List Char := s.dropWhile isWsCh

def isDigitCh (c : Char) : Bool := 48 ≤ c.toNat && c.toNat ≤ 57

def digVal (c : Char) : Nat := c.toNat - 48

def natFromDigits (ds : List Char) : Nat := ds.foldl (fun a c => a * 10 + digVal c) 0

/-- Strip an expected leading token, returning the remainder on success. -/
def stripLead : List Char → List Char → Option (List Char)
  | [], s => some s
  | _ :: _, [] => none
  | p :: ps, c :: cs => if c = p then stripLead ps cs else none

def hexVal? (c : Char) : Option Nat :=
  if 48 ≤ c.toNat ∧ c.toNat ≤ 57 then some (c.toNat - 48)
  else if 97 ≤ c.toNat ∧ c.toNat ≤ 102 then some (c.toNat - 87)
  else if 65 ≤ c.toNat ∧ c.toNat ≤ 70 then some (c.toNat - 55)
  else none

def unescCh (c : Char) : Option Char :=
  if c = qCh then some qCh
  else if c = bsCh then some bsCh
  else if c = '/' then some '/'
  else if c = 'n' then some nlCh
  else if c = 't' then some tabCh
  else if c = 'r' then some crCh
  else if c = 'f' then some ffCh
  else if c = 'b' then some bspCh
  else none

/-- Parse the body of a JSON string literal (the opening quote already
consumed), undoing `escChar`. -/
def parseStrBody : List Char → Option (List Char × List Char)
  | [] => none
  | c :: rest =>
    if c = qCh then some ([], rest)
    else if c = bsCh then
      match rest with
      | [] => none
      | e :: rest2 =>
        if e = 'u' then
          match rest2 with
          | a :: b :: c1 :: c2 :: rest3 => do
            let ha ← hexVal? a
            let hb ← hexVal? b
            let hc ← hexVal? c1
            let hd ← hexVal? c2
            let (s, r) ← parseStrBody rest3
            some (Char.ofNat (((ha * 16 + hb) * 16 + hc) * 16 + hd) :: s, r)
          | _ => none
        else do
          let u ← unescCh e
          let (s, r) ← parseStrBody rest2
          some (u :: s, r)
    else do
      let (s, r) ← parseStrBody rest
      some (c :: s, r)

def parseNat? (s : List Char) : Option (Nat × List Char) :=
  let ds := s.takeWhile isDigitCh
  if ds.isEmpty then none else some (natFromDigits ds, s.dropWhile isDigitCh)

def parseNum? (s : List Char) : Option (Json × List Char) :=
  match s with
  | [] => none
  | c :: rest =>
    if c = '-' then (parseNat? rest).map (fun p => (.num (-(p.1 : Int)), p.2))
    else (parseNat? (c :: rest)).map (fun p => (.num (p.1 : Int), p.2))

mutual

/-- Fuel-bounded recursive-descent JSON parser (model of `json.loads`). -/
def parseVal : Nat → List Char → Option (Json × List Char)
  | 0, _ => none
  | fuel + 1, s =>
    let s1 := skipWs s
    match stripLead "null".data s1 with
    | some r => some (.null, r)
    | none =>
    match stripLead "true".data s1 with
    | some r => some (.bool true, r)
    | none =>
    match stripLead "false".data s1 with
    | some r => some (.bool false, r)
    | none =>
    match s1 with
    | [] => none
    | c :: rest =>
      if c = qCh then (parseStrBody rest).map (fun p => (.str ⟨p.1⟩, p.2))
      else if c = '[' then
        match skipWs rest with
        | r0 :: r =>
          if r0 = ']' then some (.arr [], r)
          else (parseElems fuel rest).map (fun p => (.arr p.1, p.2))
        | [] => none
      else if c = obCh then
        match skipWs rest with
        | r0 :: r =>
          if r0 = cbCh then some (.obj [], r)
          else (parseFields fuel rest).map (fun p => (.obj p.1, p.2))
        | [] => none
      else if c = '-' ∨ isDigitCh c then parseNum? s1
      else none

def parseElems : Nat → List Char → Option (List Json × List Char)
  | 0, _ => none
  | fuel + 1, s => do
    let (v, r) ← parseVal fuel s
    match skipWs r with
    | c :: r2 =>
      if c = ',' then (parseElems fuel r2).map (fun p => (v :: p.1, p.2))
      else if c = ']' then some ([v], r2)
      else none
    | [] => none

def parseFields : Nat → List Char → Option (List (String × Json) × List Char)
  | 0, _ => none
  | fuel + 1, s =>
    match skipWs s with
    | c :: rest =>
      if c = qCh then do
        let (k, r) ← parseStrBody rest
        match skipWs r with
        | c2 :: r2 =>
          if c2 = ':' then do
            let (v, r3) ← parseVal fuel r2
            match skipWs r3 with
            | c3 :: r4 =>
              if c3 = ',' then (parseFields fuel r4).map (fun p => ((⟨k⟩, v) :: p.1, p.2))
              else if c3 = cbCh then some ([(⟨k⟩, v)], r4)
              else none
            | [] => none
          else none
        | [] => none
      else none
    | [] => none

end

/-- `json.loads`: parse a complete document, requiring only trailing
whitespace after the value. -/
def Json.loads (s : String) : Option Json :=
  match parseVal (s.length + 1) s.data with
  | some (v, r) => if skipWs r = [] then some v else none
  | none => none

theorem stripLead_append (p r : List Char) : stripLead p (p ++ r) = some r := by
  induction p with
  | nil => rfl
  | cons c cs ih => simp [stripLead, ih]

theorem skipWs_nil : skipWs [] = [] := rfl

theorem skipWs_cons_ws {c : Char} (h : isWsCh c = true) (r : List Char) :
    skipWs (c :: r) = skipWs r := by
  simp [skipWs, List.dropWhile_cons, h]

theorem skipWs_cons_not_ws {c : Char} (h : isWsCh c = false) (r : List Char) :
    skipWs (c :: r) = c :: r := by
  simp [skipWs, List.dropWhile_cons, h]

theorem skipWs_ws_append {w : List Char} (h : ∀ c ∈ w, isWsCh c = true) (r : List Char) :
    skipWs (w ++ r) = skipWs r := by
  induction w with
  | nil => rfl
  | cons c cs ih =>
      rw [List.cons_append, skipWs_cons_ws (h c (by simp))]
      exact ih (fun c hc => h c (by simp [hc]))

theorem indentChars_ws : ∀ c ∈ indentChars n, isWsCh c = true := by
  intro c hc
  simp only [indentChars, List.mem_replicate] at hc
  simp [hc.2, isWsCh]

theorem skipWs_indent_append (n : Nat) (r : List Char) :
    skipWs (indentChars n ++ r) = skipWs r :=
  skipWs_ws_append indentChars_ws r

theorem hexVal?_hexDig {d : Nat} (h : d < 16) : hexVal? (hexDig d) = some d := by
  interval_cases d <;> decide

theorem psb_q (r : List Char) : parseStrBody (qCh :: r) = some ([], r) := by
  rw [parseStrBody.eq_def]; simp

theorem psb_esc (e : Char) (hu : e ≠ 'u') (r : List Char) :
    parseStrBody (bsCh :: e :: r) =
      (unescCh e).bind (fun u => (parseStrBody r).bind fun p => some (u :: p.1, p.2)) := by
  rw [parseStrBody.eq_def]
  simp [hu, (by decide : bsCh ≠ qCh)]

theorem psb_u (a b c1 c2 : Char) (r : List Char) :
    parseStrBody (bsCh :: 'u' :: a :: b :: c1 :: c2 :: r) =
      (hexVal? a).bind fun ha => (hexVal? b).bind fun hb => (hexVal? c1).bind fun hc =>
        (hexVal? c2).bind fun hd => (parseStrBody r).bind fun p =>
          some (Char.ofNat (((ha * 16 + hb) * 16 + hc) * 16 + hd) :: p.1, p.2) := by
  rw [parseStrBody.eq_def]
  simp [(by decide : bsCh ≠ qCh)]

theorem psb_plain (c : Char) (r : List Char) (h1 : c ≠ qCh) (h2 : c ≠ bsCh) :
    parseStrBody (c :: r) = (parseStrBody r).bind (fun p => some (c :: p.1, p.2)) := by
  rw [parseStrBody.eq_def]
  simp [h1, h2]

theorem parseStrBody_esc (cs rest : List Char) :
    parseStrBody (escChars cs ++ qCh :: rest) = some (cs, rest) := by
  induction cs with
  | nil => simpa [escChars] using psb_q rest
  | cons c cs ih =>
      show parseStrBody ((escChar c ++ escChars cs) ++ qCh :: rest) = _
      rw [List.append_assoc]
      by_cases h1 : c = qCh
      · subst h1
        rw [show escChar qCh = [bsCh, qCh] from by decide]
        simp only [List.cons_append, List.nil_append]
        rw [psb_esc qCh (by decide), (by decide : unescCh qCh = some qCh), ih]
        rfl
      · by_cases h2 : c = bsCh
        · subst h2
          rw [show escChar bsCh = [bsCh, bsCh] from by decide]
          simp only [List.cons_append, List.nil_append]
          rw [psb_esc bsCh (by decide), (by decide : unescCh bsCh = some bsCh), ih]
          rfl
        · by_cases h3 : c = nlCh
          · subst h3
            rw [show escChar nlCh = [bsCh, 'n'] from by decide]
            simp only [List.cons_append, List.nil_append]
            rw [psb_esc 'n' (by decide), (by decide : unescCh 'n' = some nlCh), ih]
            rfl
          · by_cases h4 : c = tabCh
            · subst h4
              rw [show escChar tabCh = [bsCh, 't'] from by decide]
              simp only [List.cons_append, List.nil_append]
              rw [psb_esc 't' (by decide), (by decide : unescCh 't' = some tabCh), ih]
              rfl
            · by_cases h5 : c = crCh
              · subst h5
                rw [show escChar crCh = [bsCh, 'r'] from by decide]
                simp only [List.cons_append, List.nil_append]
                rw [psb_esc 'r' (by decide), (by decide : unescCh 'r' = some crCh), ih]
                rfl
              · by_cases h6 : c = ffCh
                · subst h6
                  rw [show escChar ffCh = [bsCh, 'f'] from by decide]
                  simp only [List.cons_append, List.nil_append]
                  rw [psb_esc 'f' (by decide), (by decide : unescCh 'f' = some ffCh), ih]
                  rfl
                · by_cases h7 : c = bspCh
                  · subst h7
                    rw [show escChar bspCh = [bsCh, 'b'] from by decide]
                    simp only [List.cons_append, List.nil_append]
                    rw [psb_esc 'b' (by decide), (by decide : unescCh 'b' = some bspCh), ih]
                    rfl
                  · by_cases h8 : c.toNat < 32
                    · have hv : hexVal? (hexDig (c.toNat / 16)) = some (c.toNat / 16) :=
                        hexVal?_hexDig (by omega)
                      have hv2 : hexVal? (hexDig (c.toNat % 16)) = some (c.toNat % 16) :=
                        hexVal?_hexDig (by omega)
                      have hc : (((0 * 16 + 0) * 16 + c.toNat / 16) * 16 + c.toNat % 16) = c.toNat := by
                        omega
                      simp only [escChar, h1, h2, h3, h4, h5, h6, h7, h8, if_false, if_true,
                        List.cons_append, List.nil_append, if_neg, ite_false, ite_true]
                      rw [psb_u, (by decide : hexVal? '0' = some 0), ih]
                      simp only [Option.bind_some, Option.some_bind, hv, hv2]
                      have h9 : c.toNat / 16 * 16 + c.toNat % 16 = c.toNat := by omega
                      simp [h9, Char.ofNat_toNat]
                    · simp only [escChar, h1, h2, h3, h4, h5, h6, h7, h8, if_false,
                        List.cons_append, List.nil_append, ite_false]
                      rw [psb_plain c _ h1 h2, ih]
                      rfl

theorem digVal_digCh {d : Nat} (h : d < 10) : digVal (digCh d) = d := by
  interval_cases d <;> decide

theorem isDigitCh_digCh {d : Nat} (h : d < 10) : isDigitCh (digCh d) = true := by
  interval_cases d <;> decide

theorem natChars_digits (n : Nat) : ∀ c ∈ natChars n, isDigitCh c = true := by
  intro c hc
  unfold natChars at hc
  split at hc
  · simp only [List.mem_singleton] at hc
    subst hc; decide
  · simp only [List.mem_reverse, List.mem_map] at hc
    obtain ⟨d, hd, rfl⟩ := hc
    exact isDigitCh_digCh (Nat.digits_lt_base (by norm_num) hd)

theorem natChars_ne_nil (n : Nat) : natChars n ≠ [] := by
  unfold natChars
  split
  · simp
  · simp only [ne_eq, List.reverse_eq_nil_iff, List.map_eq_nil_iff]
    simp_all [Nat.digits_eq_nil_iff_eq_zero]

theorem foldl_digits_eq (L : List Nat) (hL : ∀ d ∈ L, d < 10) :
    ((L.map digCh).reverse).foldl (fun a c => a * 10 + digVal c) 0 = Nat.ofDigits 10 L := by
  induction L with
  | nil => simp [Nat.ofDigits]
  | cons d L ih =>
      simp only [List.map_cons, List.reverse_cons, List.foldl_append, List.foldl_cons,
        List.foldl_nil]
      rw [ih (fun x hx => hL x (by simp [hx])), digVal_digCh (hL d (by simp)),
        Nat.ofDigits_cons]
      ring

theorem natFromDigits_natChars (n : Nat) : natFromDigits (natChars n) = n := by
  unfold natFromDigits natChars
  split
  · rename_i h
    subst h
    decide
  · exact (foldl_digits_eq _ (fun d hd => Nat.digits_lt_base (by norm_num) hd)).trans
      (Nat.ofDigits_digits 10 n)

theorem takeWhile_all_append {p : Char → Bool} {l r : List Char} (hl : ∀ c ∈ l, p c = true)
    (hr : ∀ c, r.head? = some c → p c = false) :
    (l ++ r).takeWhile p = l ∧ (l ++ r).dropWhile p = r := by
  induction l with
  | nil =>
      cases r with
      | nil => simp
      | cons c t => simp [List.takeWhile_cons, List.dropWhile_cons, hr c rfl]
  | cons c l ih =>
      have hc : p c = true := hl c (by simp)
      have := ih (fun x hx => hl x (by simp [hx]))
      simp [List.takeWhile_cons, List.dropWhile_cons, hc, this.1, this.2]

theorem parseNat?_natChars (n : Nat) (rest : List Char)
    (hrest : ∀ c, rest.head? = some c → isDigitCh c = false) :
    parseNat? (natChars n ++ rest) = some (n, rest) := by
  obtain ⟨ht, hd⟩ := takeWhile_all_append (natChars_digits n) hrest
  have hne : (natChars n).isEmpty = false := by
    cases h : natChars n with
    | nil => exact absurd h (natChars_ne_nil n)
    | cons c t => rfl
  simp [parseNat?, ht, hd, hne, natFromDigits_natChars]

theorem isDigitCh_ne_dash {c : Char} (h : isDigitCh c = true) : c ≠ '-' := by
  intro hc
  subst hc
  simp [isDigitCh] at h

theorem parseNum?_dash (t : List Char) :
    parseNum? ('-' :: t) = (parseNat? t).map (fun p => (.num (-(p.1 : Int)), p.2)) := rfl

theorem parseNum?_nodash (c : Char) (t : List Char) (h : ¬(c = '-')) :
    parseNum? (c :: t) = (parseNat? (c :: t)).map (fun p => (.num (p.1 : Int), p.2)) := by
  show (if c = '-' then Option.map (fun p => (Json.num (-(p.1 : Int)), p.2)) (parseNat? t)
    else Option.map (fun p => (Json.num (p.1 : Int), p.2)) (parseNat? (c :: t))) = _
  rw [if_neg h]

theorem parseNum?_intChars (n : Int) (rest : List Char)
    (hrest : ∀ c, rest.head? = some c → isDigitCh c = false) :
    parseNum? (intChars n ++ rest) = some (.num n, rest) := by
  unfold intChars
  split
  · rename_i hneg
    rw [List.cons_append, parseNum?_dash, parseNat?_natChars n.natAbs rest hrest]
    have h : -((n.natAbs : Int)) = n := by omega
    simp [h]
    rw [abs_of_neg hneg, neg_neg]
  · rename_i hpos
    cases hnc : natChars n.toNat with
    | nil => exact absurd hnc (natChars_ne_nil n.toNat)
    | cons c cs =>
        have hcd : isDigitCh c = true := by
          apply natChars_digits n.toNat
          rw [hnc]; simp
        have hdash : ¬(c = '-') := isDigitCh_ne_dash hcd
        rw [List.cons_append, parseNum?_nodash c _ hdash, ← List.cons_append, ← hnc,
          parseNat?_natChars n.toNat rest hrest]
        have h : ((n.toNat : Int)) = n := by omega
        simp [h]

theorem null_data_eq : "null".data = ['n', 'u', 'l', 'l'] := rfl

theorem true_data_eq : "true".data = ['t', 'r', 'u', 'e'] := rfl

theorem false_data_eq : "false".data = ['f', 'a', 'l', 's', 'e'] := rfl

theorem stripLead_cons_ne {p c : Char} (ps cs : List Char) (h : ¬(c = p)) :
    stripLead (p :: ps) (c :: cs) = none := by
  simp [stripLead, h]

/-- The first character of serialised JSON: not whitespace, not a closing
bracket, not a comma, and it cannot start the tokens of a different branch. -/
def headGood (l : List Char) : Prop :=
  match l with
  | [] => False
  | c :: _ => isWsCh c = false ∧ ¬(c = ']') ∧ ¬(c = cbCh) ∧ ¬(c = ',')

theorem isDigitCh_facts {c : Char} (h : isDigitCh c = true) :
    isWsCh c = false ∧ ¬(c = ']') ∧ ¬(c = cbCh) ∧ ¬(c = ',') ∧ ¬(c = 'n') ∧ ¬(c = 't') ∧
      ¬(c = 'f') ∧ ¬(c = qCh) ∧ ¬(c = '[') ∧ ¬(c = obCh) := by
  refine ⟨?_, ?_, ?_, ?_, ?_, ?_, ?_, ?_, ?_, ?_⟩
  · cases hw : isWsCh c with
    | false => rfl
    | true =>
        exfalso
        simp only [isWsCh, Bool.or_eq_true, decide_eq_true_eq] at hw
        rcases hw with ((h1 | h1) | h1) | h1 <;> (subst h1; exact absurd h (by decide))
  all_goals (intro h1; subst h1; exact absurd h (by decide))

theorem intChars_headGood (n : Int) : headGood (intChars n) := by
  unfold intChars
  split
  · simp only [headGood]
    refine ⟨by decide, by decide, by decide, by decide⟩
  · cases hnc : natChars n.toNat with
    | nil => exact absurd hnc (natChars_ne_nil n.toNat)
    | cons c cs =>
        have hcd : isDigitCh c = true := by
          apply natChars_digits n.toNat
          rw [hnc]; simp
        have hf := isDigitCh_facts hcd
        exact ⟨hf.1, hf.2.1, hf.2.2.1, hf.2.2.2.1⟩

theorem dumpVal_headGood (ind : Nat) (v : Json) : headGood (dumpVal ind v) := by
  cases v with
  | null => rw [dumpVal]; exact ⟨by decide, by decide, by decide, by decide⟩
  | bool b =>
      cases b with
      | true => rw [dumpVal]; exact ⟨by decide, by decide, by decide, by decide⟩
      | false => rw [dumpVal]; exact ⟨by decide, by decide, by decide, by decide⟩
  | num n => rw [dumpVal]; exact intChars_headGood n
  | str s => rw [dumpVal]; exact ⟨by decide, by decide, by decide, by decide⟩
  | arr xs =>
      cases xs with
      | nil => rw [dumpVal]; exact ⟨by decide, by decide, by decide, by decide⟩
      | cons x xs => rw [dumpVal]; exact ⟨by decide, by decide, by decide, by decide⟩
  | obj fs =>
      cases fs with
      | nil => rw [dumpVal]; exact ⟨by decide, by decide, by decide, by decide⟩
      | cons f fs => rw [dumpVal]; exact ⟨by decide, by decide, by decide, by decide⟩

theorem headGood_cons {l : List Char} (h : headGood l) :
    ∃ c t, l = c :: t ∧ isWsCh c = false ∧ ¬(c = ']') ∧ ¬(c = cbCh) ∧ ¬(c = ',') := by
  cases l with
  | nil => exact absurd h (by simp [headGood])
  | cons c t => exact ⟨c, t, rfl, h.1, h.2.1, h.2.2.1, h.2.2.2⟩

theorem skipWs_headGood_append {l : List Char} (h : headGood l) (r : List Char) :
    skipWs (l ++ r) = l ++ r := by
  obtain ⟨c, t, rfl, hws, -, -, -⟩ := headGood_cons h
  rw [List.cons_append, skipWs_cons_not_ws hws]

theorem skipWs_dumpElems (ind : Nat) (x : Json) (xs : List Json) (tail : List Char) :
    ∃ t, skipWs (dumpElems ind x xs ++ tail) = dumpVal ind x ++ t := by
  cases xs with
  | nil =>
      refine ⟨tail, ?_⟩
      rw [dumpElems, List.append_assoc, skipWs_indent_append,
        skipWs_headGood_append (dumpVal_headGood ind x)]
  | cons y ys =>
      refine ⟨',' :: nlCh :: dumpElems ind y ys ++ tail, ?_⟩
      rw [dumpElems]
      have : (indentChars ind ++ dumpVal ind x ++ ',' :: nlCh :: dumpElems ind y ys) ++ tail =
          indentChars ind ++ (dumpVal ind x ++ (',' :: nlCh :: dumpElems ind y ys ++ tail)) := by
        simp
      rw [this, skipWs_indent_append, skipWs_headGood_append (dumpVal_headGood ind x)]

theorem skipWs_dumpFields (ind : Nat) (f : String × Json) (fs : List (String × Json))
    (tail : List Char) :
    ∃ t, skipWs (dumpFields ind f fs ++ tail) = qCh :: t := by
  have hq : headGood (strChars f.1) := ⟨by decide, by decide, by decide, by decide⟩
  cases fs with
  | nil =>
      refine ⟨escChars f.1.data ++ [qCh] ++ (':' :: ' ' :: dumpVal ind f.2 ++ tail), ?_⟩
      rw [dumpFields]
      have : (indentChars ind ++ strChars f.1 ++ ':' :: ' ' :: dumpVal ind f.2) ++ tail =
          indentChars ind ++ (strChars f.1 ++ (':' :: ' ' :: dumpVal ind f.2 ++ tail)) := by
        simp
      rw [this, skipWs_indent_append, skipWs_headGood_append hq]
      simp [strChars]
  | cons g gs =>
      refine ⟨escChars f.1.data ++ [qCh] ++
        (':' :: ' ' :: dumpVal ind f.2 ++ ',' :: nlCh :: dumpFields ind g gs ++ tail), ?_⟩
      rw [dumpFields]
      have : (indentChars ind ++ strChars f.1 ++ ':' :: ' ' :: dumpVal ind f.2 ++
          ',' :: nlCh :: dumpFields ind g gs) ++ tail =
          indentChars ind ++ (strChars f.1 ++ (':' :: ' ' :: dumpVal ind f.2 ++
            ',' :: nlCh :: dumpFields ind g gs ++ tail)) := by
        simp
      rw [this, skipWs_indent_append, skipWs_headGood_append hq]
      simp [strChars]

theorem Json.size_pos (v : Json) : 1 ≤ Json.size v := by
  cases v <;> simp [Json.size]

theorem intChars_head (n : Int) :
    ∃ c t, intChars n = c :: t ∧ ¬(c = 'n') ∧ ¬(c = 't') ∧ ¬(c = 'f') ∧ ¬(c = qCh) ∧
      ¬(c = '[') ∧ ¬(c = obCh) ∧ ((c = '-') = True ∨ isDigitCh c = true) := by
  unfold intChars
  split
  · exact ⟨'-', _, rfl, by decide, by decide, by decide, by decide, by decide, by decide,
      Or.inl (by simp)⟩
  · cases hnc : natChars n.toNat with
    | nil => exact absurd hnc (natChars_ne_nil n.toNat)
    | cons c cs =>
        have hcd : isDigitCh c = true := by
          apply natChars_digits n.toNat
          rw [hnc]; simp
        have hf := isDigitCh_facts hcd
        exact ⟨c, cs, rfl, hf.2.2.2.2.1, hf.2.2.2.2.2.1, hf.2.2.2.2.2.2.1,
          hf.2.2.2.2.2.2.2.1, hf.2.2.2.2.2.2.2.2.1, hf.2.2.2.2.2.2.2.2.2, Or.inr hcd⟩

theorem br_ne_qCh : (('[' : Char) = qCh) = False := by decide

theorem br_ne_obCh : (('[' : Char) = obCh) = False := by decide

theorem obCh_ne_qCh : ((obCh : Char) = qCh) = False := by decide

theorem obCh_ne_br : ((obCh : Char) = '[') = False := by decide

theorem qCh_ne_cbCh : ((qCh : Char) = cbCh) = False := by decide

theorem cbCh_ne_comma : ((cbCh : Char) = ',') = False := by decide

theorem cbCh_eq_cbCh : ((cbCh : Char) = cbCh) = True := by simp

theorem parse_dump (fuel : Nat) :
    (∀ (v : Json) (ind : Nat) (w rest : List Char),
       (∀ c ∈ w, isWsCh c = true) →
       (∀ c, rest.head? = some c → isDigitCh c = false) →
       Json.size v < fuel →
       parseVal fuel (w ++ dumpVal ind v ++ rest) = some (v, rest))
  ∧ (∀ (x : Json) (xs : List Json) (ind ind2 : Nat) (w rest : List Char),
       (∀ c ∈ w, isWsCh c = true) →
       Json.sizeList (x :: xs) < fuel →
       parseElems fuel (w ++ dumpElems ind x xs ++ nlCh :: (indentChars ind2 ++ ']' :: rest)) =
         some (x :: xs, rest))
  ∧ (∀ (f : String × Json) (fs : List (String × Json)) (ind ind2 : Nat) (w rest : List Char),
       (∀ c ∈ w, isWsCh c = true) →
       Json.sizeFields (f :: fs) < fuel →
       parseFields fuel (w ++ dumpFields ind f fs ++ nlCh :: (indentChars ind2 ++ cbCh :: rest)) =
         some (f :: fs, rest)) := by
  induction fuel with
  | zero =>
      refine ⟨?_, ?_, ?_⟩ <;> (intros; omega)
  | succ fuel ih =>
      obtain ⟨ihV, ihE, ihF⟩ := ih
      refine ⟨?_, ?_, ?_⟩
      · -- values
        intro v ind w rest hw hrest hsz
        have hs1 : skipWs (w ++ dumpVal ind v ++ rest) = dumpVal ind v ++ rest := by
          rw [List.append_assoc, skipWs_ws_append hw,
            skipWs_headGood_append (dumpVal_headGood ind v)]
        rw [parseVal.eq_def]
        cases v with
        | null =>
            rw [dumpVal] at hs1 ⊢
            simp only [hs1, stripLead_append]
        | bool b =>
            cases b with
            | true =>
                rw [dumpVal] at hs1 ⊢
                have e1 : stripLead "null".data ("true".data ++ rest) = none := rfl
                have e2 : stripLead "true".data ("true".data ++ rest) = some rest := rfl
                simp only [hs1, e1, e2]
            | false =>
                rw [dumpVal] at hs1 ⊢
                have e1 : stripLead "null".data ("false".data ++ rest) = none := rfl
                have e2 : stripLead "true".data ("false".data ++ rest) = none := rfl
                have e3 : stripLead "false".data ("false".data ++ rest) = some rest := rfl
                simp only [hs1, e1, e2, e3]
        | num n =>
            rw [dumpVal] at hs1 ⊢
            obtain ⟨c, t, hct, hn, ht, hf, hq, hbr, hob, hdig⟩ := intChars_head n
            have e1 : stripLead "null".data (intChars n ++ rest) = none := by
              rw [hct, null_data_eq, List.cons_append]
              exact stripLead_cons_ne _ _ hn
            have e2 : stripLead "true".data (intChars n ++ rest) = none := by
              rw [hct, true_data_eq, List.cons_append]
              exact stripLead_cons_ne _ _ ht
            have e3 : stripLead "false".data (intChars n ++ rest) = none := by
              rw [hct, false_data_eq, List.cons_append]
              exact stripLead_cons_ne _ _ hf
            have hnum := parseNum?_intChars n rest hrest
            simp only [hs1, e1, e2, e3]
            rw [hct, List.cons_append]
            simp only [hq, hbr, hob, if_false, ite_false]
            rcases hdig with hd | hd
            · simp only [hd, true_or, if_true, ite_true, ← List.cons_append, ← hct, hnum]
            · simp only [hd, or_true, if_true, ite_true, ← List.cons_append, ← hct, hnum]
        | str s =>
            rw [dumpVal] at hs1 ⊢
            rw [strChars] at hs1 ⊢
            have e1 : stripLead "null".data ((qCh :: (escChars s.data ++ [qCh])) ++ rest) =
                none := by
              rw [null_data_eq, List.cons_append]
              exact stripLead_cons_ne _ _ (by decide)
            have e2 : stripLead "true".data ((qCh :: (escChars s.data ++ [qCh])) ++ rest) =
                none := by
              rw [true_data_eq, List.cons_append]
              exact stripLead_cons_ne _ _ (by decide)
            have e3 : stripLead "false".data ((qCh :: (escChars s.data ++ [qCh])) ++ rest) =
                none := by
              rw [false_data_eq, List.cons_append]
              exact stripLead_cons_ne _ _ (by decide)
            have hesc : parseStrBody (escChars s.data ++ [qCh] ++ rest) = some (s.data, rest) := by
              rw [List.append_assoc, List.cons_append, List.nil_append]
              exact parseStrBody_esc s.data rest
            simp only [hs1, e1, e2, e3, List.cons_append, if_pos rfl]
            simp only [hesc]
            rfl
        | arr xs =>
            cases xs with
            | nil =>
                rw [dumpVal] at hs1 ⊢
                simp only [hs1, List.cons_append, List.nil_append]
                have e1 : stripLead "null".data ('[' :: ']' :: rest) = none := rfl
                have e2 : stripLead "true".data ('[' :: ']' :: rest) = none := rfl
                have e3 : stripLead "false".data ('[' :: ']' :: rest) = none := rfl
                have hsw : skipWs (']' :: rest) = ']' :: rest :=
                  skipWs_cons_not_ws (by decide) rest
                simp [e1, e2, e3, hsw, br_ne_qCh]
            | cons x xs =>
                rw [dumpVal] at hs1 ⊢
                have hshape : ('[' :: nlCh :: (dumpElems (ind + 2) x xs ++
                    nlCh :: (indentChars ind ++ [']']))) ++ rest =
                    '[' :: nlCh :: (dumpElems (ind + 2) x xs ++
                      nlCh :: (indentChars ind ++ (']' :: rest))) := by
                  simp
                rw [hshape] at hs1
                have e1 : stripLead "null".data ('[' :: nlCh :: (dumpElems (ind + 2) x xs ++
                    nlCh :: (indentChars ind ++ (']' :: rest)))) = none := by
                  rw [null_data_eq]
                  exact stripLead_cons_ne _ _ (by decide)
                have e2 : stripLead "true".data ('[' :: nlCh :: (dumpElems (ind + 2) x xs ++
                    nlCh :: (indentChars ind ++ (']' :: rest)))) = none := by
                  rw [true_data_eq]
                  exact stripLead_cons_ne _ _ (by decide)
                have e3 : stripLead "false".data ('[' :: nlCh :: (dumpElems (ind + 2) x xs ++
                    nlCh :: (indentChars ind ++ (']' :: rest)))) = none := by
                  rw [false_data_eq]
                  exact stripLead_cons_ne _ _ (by decide)
                obtain ⟨t1, ht1⟩ := skipWs_dumpElems (ind + 2) x xs
                  (nlCh :: (indentChars ind ++ (']' :: rest)))
                obtain ⟨c2, t2, hc2, hws2, hne2, hne2b, hne2c⟩ :=
                  headGood_cons (dumpVal_headGood (ind + 2) x)
                have hsw : skipWs (nlCh :: (dumpElems (ind + 2) x xs ++
                    nlCh :: (indentChars ind ++ (']' :: rest)))) = c2 :: (t2 ++ t1) := by
                  rw [skipWs_cons_ws (by decide), ht1, hc2, List.cons_append]
                have hE : parseElems fuel
                    (nlCh :: (dumpElems (ind + 2) x xs ++
                      nlCh :: (indentChars ind ++ (']' :: rest)))) = some (x :: xs, rest) := by
                  have := ihE x xs (ind + 2) ind [nlCh] rest
                    (by intro c hc; simp at hc; subst hc; decide)
                    (by simp [Json.size] at hsz; omega)
                  simpa using this
                simp only [hs1, e1, e2, e3, hsw, hE, br_ne_qCh, ite_false, if_pos rfl,
                  ite_true, if_neg hne2]
                rfl
        | obj fs =>
            cases fs with
            | nil =>
                rw [dumpVal] at hs1 ⊢
                simp only [hs1, List.cons_append, List.nil_append]
                have e1 : stripLead "null".data (obCh :: cbCh :: rest) = none := rfl
                have e2 : stripLead "true".data (obCh :: cbCh :: rest) = none := rfl
                have e3 : stripLead "false".data (obCh :: cbCh :: rest) = none := rfl
                have hsw : skipWs (cbCh :: rest) = cbCh :: rest :=
                  skipWs_cons_not_ws (by decide) rest
                simp [e1, e2, e3, hsw, obCh_ne_qCh, obCh_ne_br, cbCh_eq_cbCh]
            | cons f fs =>
                rw [dumpVal] at hs1 ⊢
                have hshape : (obCh :: nlCh :: (dumpFields (ind + 2) f fs ++
                    nlCh :: (indentChars ind ++ [cbCh]))) ++ rest =
                    obCh :: nlCh :: (dumpFields (ind + 2) f fs ++
                      nlCh :: (indentChars ind ++ (cbCh :: rest))) := by
                  simp
                rw [hshape] at hs1
                have e1 : stripLead "null".data (obCh :: nlCh :: (dumpFields (ind + 2) f fs ++
                    nlCh :: (indentChars ind ++ (cbCh :: rest)))) = none := by
                  rw [null_data_eq]
                  exact stripLead_cons_ne _ _ (by decide)
                have e2 : stripLead "true".data (obCh :: nlCh :: (dumpFields (ind + 2) f fs ++
                    nlCh :: (indentChars ind ++ (cbCh :: rest)))) = none := by
                  rw [true_data_eq]
                  exact stripLead_cons_ne _ _ (by decide)
                have e3 : stripLead "false".data (obCh :: nlCh :: (dumpFields (ind + 2) f fs ++
                    nlCh :: (indentChars ind ++ (cbCh :: rest)))) = none := by
                  rw [false_data_eq]
                  exact stripLead_cons_ne _ _ (by decide)
                obtain ⟨t1, ht1⟩ := skipWs_dumpFields (ind + 2) f fs
                  (nlCh :: (indentChars ind ++ (cbCh :: rest)))
                have hsw : skipWs (nlCh :: (dumpFields (ind + 2) f fs ++
                    nlCh :: (indentChars ind ++ (cbCh :: rest)))) = qCh :: t1 := by
                  rw [skipWs_cons_ws (by decide), ht1]
                have hF : parseFields fuel
                    (nlCh :: (dumpFields (ind + 2) f fs ++
                      nlCh :: (indentChars ind ++ (cbCh :: rest)))) = some (f :: fs, rest) := by
                  have := ihF f fs (ind + 2) ind [nlCh] rest
                    (by intro c hc; simp at hc; subst hc; decide)
                    (by simp [Json.size] at hsz; omega)
                  simpa using this
                simp only [hs1, e1, e2, e3, hsw, hF, obCh_ne_qCh, obCh_ne_br, qCh_ne_cbCh,
                  ite_false, if_pos rfl, ite_true]
                rfl
      · -- array elements
        intro x xs ind ind2 w rest hw hsz
        rw [parseElems.eq_def]
        cases xs with
        | nil =>
            rw [dumpElems]
            have hx : parseVal fuel ((w ++ indentChars ind) ++ dumpVal ind x ++
                (nlCh :: (indentChars ind2 ++ ']' :: rest))) = some (x, nlCh ::
                (indentChars ind2 ++ ']' :: rest)) := by
              apply ihV
              · intro c hc
                rcases List.mem_append.mp hc with h | h
                · exact hw c h
                · exact indentChars_ws c h
              · intro c hc
                simp at hc
                subst hc
                decide
              · simp [Json.sizeList] at hsz
                omega
            have hin : w ++ (indentChars ind ++ dumpVal ind x) ++
                nlCh :: (indentChars ind2 ++ ']' :: rest) =
                (w ++ indentChars ind) ++ dumpVal ind x ++
                (nlCh :: (indentChars ind2 ++ ']' :: rest)) := by
              simp
            have hsw : skipWs (nlCh :: (indentChars ind2 ++ ']' :: rest)) = ']' :: rest := by
              rw [skipWs_cons_ws (by decide), skipWs_indent_append,
                skipWs_cons_not_ws (by decide)]
            simp only [hin, hx, Option.some_bind, hsw]
            simp [hsw, (by decide : ((']' : Char) = ',') = False)]
        | cons y ys =>
            rw [dumpElems]
            have hx := ihV x ind (w ++ indentChars ind)
              (',' :: nlCh :: dumpElems ind y ys ++ nlCh :: (indentChars ind2 ++ ']' :: rest))
              (by
                intro c hc
                rcases List.mem_append.mp hc with h | h
                · exact hw c h
                · exact indentChars_ws c h)
              (by intro c hc; simp at hc; subst hc; decide)
              (by simp [Json.sizeList] at hsz; have := Json.size_pos y; omega)
            have hsw : skipWs (',' :: (nlCh :: (dumpElems ind y ys ++
                nlCh :: (indentChars ind2 ++ ']' :: rest)))) =
                ',' :: (nlCh :: (dumpElems ind y ys ++
                  nlCh :: (indentChars ind2 ++ ']' :: rest))) :=
              skipWs_cons_not_ws (by decide) _
            have hrec := ihE y ys ind ind2 [nlCh] rest
              (by intro c hc; simp at hc; subst hc; decide)
              (by simp [Json.sizeList] at hsz ⊢; have := Json.size_pos x; omega)
            simp only [List.append_assoc, List.cons_append, List.nil_append] at hx hrec ⊢
            simp [hx, hsw, hrec]
      · -- object fields
        intro f fs ind ind2 w rest hw hsz
        rw [parseFields.eq_def]
        cases fs with
        | nil =>
            rw [dumpFields]
            have hsw : skipWs ((w ++ indentChars ind) ++ (strChars f.1 ++
                (':' :: ' ' :: dumpVal ind f.2 ++ nlCh :: (indentChars ind2 ++ cbCh :: rest)))) =
                strChars f.1 ++
                  (':' :: ' ' :: dumpVal ind f.2 ++
                    nlCh :: (indentChars ind2 ++ cbCh :: rest)) := by
              rw [skipWs_ws_append, skipWs_headGood_append]
              · exact ⟨by decide, by decide, by decide, by decide⟩
              · intro c hc
                rcases List.mem_append.mp hc with h | h
                · exact hw c h
                · exact indentChars_ws c h
            have hstr := parseStrBody_esc f.1.data
              (':' :: ' ' :: dumpVal ind f.2 ++ nlCh :: (indentChars ind2 ++ cbCh :: rest))
            have hswc : skipWs (':' :: (' ' :: (dumpVal ind f.2 ++
                nlCh :: (indentChars ind2 ++ cbCh :: rest)))) =
                ':' :: (' ' :: (dumpVal ind f.2 ++
                  nlCh :: (indentChars ind2 ++ cbCh :: rest))) :=
              skipWs_cons_not_ws (by decide) _
            have hv := ihV f.2 ind [' '] (nlCh :: (indentChars ind2 ++ cbCh :: rest))
              (by intro c hc; simp at hc; subst hc; decide)
              (by intro c hc; simp at hc; subst hc; decide)
              (by simp [Json.sizeFields] at hsz; omega)
            have hswv : skipWs (nlCh :: (indentChars ind2 ++ cbCh :: rest)) = cbCh :: rest := by
              rw [skipWs_cons_ws (by decide), skipWs_indent_append,
                skipWs_cons_not_ws (by decide)]
            simp only [strChars, List.append_assoc, List.cons_append, List.nil_append]
              at hsw hstr hv ⊢
            simp [hsw, hstr, hswc, hv, hswv, cbCh_ne_comma, cbCh_eq_cbCh]
        | cons g gs =>
            rw [dumpFields]
            have hsw : skipWs ((w ++ indentChars ind) ++ (strChars f.1 ++
                (':' :: ' ' :: dumpVal ind f.2 ++ (',' :: nlCh :: dumpFields ind g gs ++
                  nlCh :: (indentChars ind2 ++ cbCh :: rest))))) =
                strChars f.1 ++ (':' :: ' ' :: dumpVal ind f.2 ++
                  (',' :: nlCh :: dumpFields ind g gs ++
                    nlCh :: (indentChars ind2 ++ cbCh :: rest))) := by
              rw [skipWs_ws_append, skipWs_headGood_append]
              · exact ⟨by decide, by decide, by decide, by decide⟩
              · intro c hc
                rcases List.mem_append.mp hc with h | h
                · exact hw c h
                · exact indentChars_ws c h
            have hstr := parseStrBody_esc f.1.data
              (':' :: ' ' :: dumpVal ind f.2 ++ (',' :: nlCh :: dumpFields ind g gs ++
                nlCh :: (indentChars ind2 ++ cbCh :: rest)))
            have hswc : skipWs (':' :: (' ' :: (dumpVal ind f.2 ++
                (',' :: (nlCh :: (dumpFields ind g gs ++
                  nlCh :: (indentChars ind2 ++ cbCh :: rest))))))) =
                ':' :: (' ' :: (dumpVal ind f.2 ++
                  (',' :: (nlCh :: (dumpFields ind g gs ++
                    nlCh :: (indentChars ind2 ++ cbCh :: rest)))))) :=
              skipWs_cons_not_ws (by decide) _
            have hv := ihV f.2 ind [' ']
              (',' :: nlCh :: dumpFields ind g gs ++ nlCh :: (indentChars ind2 ++ cbCh :: rest))
              (by intro c hc; simp at hc; subst hc; decide)
              (by intro c hc; simp at hc; subst hc; decide)
              (by simp [Json.sizeFields] at hsz; have := Json.size_pos g.2; omega)
            have hswcm : skipWs (',' :: (nlCh :: (dumpFields ind g gs ++
                nlCh :: (indentChars ind2 ++ cbCh :: rest)))) =
                ',' :: (nlCh :: (dumpFields ind g gs ++
                  nlCh :: (indentChars ind2 ++ cbCh :: rest))) :=
              skipWs_cons_not_ws (by decide) _
            have hrec := ihF g gs ind ind2 [nlCh] rest
              (by intro c hc; simp at hc; subst hc; decide)
              (by simp [Json.sizeFields] at hsz ⊢; have := Json.size_pos f.2; omega)
            simp only [strChars, List.append_assoc, List.cons_append, List.nil_append]
              at hsw hstr hv hrec ⊢
            simp [hsw, hstr, hswc, hv, hswcm, hrec]

mutual

theorem size_le_dumpVal : ∀ (ind : Nat) (v : Json), Json.size v ≤ (dumpVal ind v).length
  | ind, .null => by simp [dumpVal, Json.size]
  | ind, .bool true => by simp [dumpVal, Json.size]
  | ind, .bool false => by simp [dumpVal, Json.size]
  | ind, .num n => by
      have := natChars_ne_nil n.natAbs
      have := natChars_ne_nil n.toNat
      simp only [dumpVal, Json.size, intChars]
      split <;> (cases hnc : natChars _ <;> simp_all)
  | ind, .str s => by simp [dumpVal, Json.size, strChars]
  | ind, .arr [] => by simp [dumpVal, Json.size, Json.sizeList]
  | ind, .arr (x :: xs) => by
      have h := size_le_dumpElems (ind + 2) x xs
      simp only [dumpVal, Json.size]
      simp only [List.length_cons, List.length_append]
      omega
  | ind, .obj [] => by simp [dumpVal, Json.size, Json.sizeFields]
  | ind, .obj (f :: fs) => by
      have h := size_le_dumpFields (ind + 2) f fs
      simp only [dumpVal, Json.size]
      simp only [List.length_cons, List.length_append]
      omega
termination_by ind v => Json.size v
decreasing_by all_goals (simp [Json.size, Json.sizeList, Json.sizeFields]; try omega)

theorem size_le_dumpElems : ∀ (ind : Nat) (x : Json) (xs : List Json),
    Json.sizeList (x :: xs) ≤ (dumpElems ind x xs).length + 2
  | ind, x, [] => by
      have h := size_le_dumpVal ind x
      simp only [dumpElems, Json.sizeList, Json.sizeList.eq_1, List.length_append,
        indentChars, List.length_replicate]
      omega
  | ind, x, y :: ys => by
      have h1 := size_le_dumpVal ind x
      have h2 := size_le_dumpElems ind y ys
      simp only [dumpElems, Json.sizeList, List.length_append, List.length_cons,
        indentChars, List.length_replicate] at h2 ⊢
      omega
termination_by ind x xs => Json.size x + Json.sizeList xs + 1
decreasing_by all_goals (simp [Json.size, Json.sizeList, Json.sizeFields]; try omega)

theorem size_le_dumpFields : ∀ (ind : Nat) (f : String × Json) (fs : List (String × Json)),
    Json.sizeFields (f :: fs) ≤ (dumpFields ind f fs).length + 2
  | ind, f, [] => by
      have h := size_le_dumpVal ind f.2
      simp only [dumpFields, Json.sizeFields, Json.sizeFields.eq_1, List.length_append,
        List.length_cons, indentChars, List.length_replicate]
      omega
  | ind, f, g :: gs => by
      have h1 := size_le_dumpVal ind f.2
      have h2 := size_le_dumpFields ind g gs
      simp only [dumpFields, Json.sizeFields, List.length_append, List.length_cons,
        indentChars, List.length_replicate] at h2 ⊢
      omega
termination_by ind f fs => Json.size f.2 + Json.sizeFields fs + 1
decreasing_by all_goals (simp [Json.size, Json.sizeList, Json.sizeFields]; try omega)

end

theorem size_lt_dump_len (v : Json) : Json.size v < (dumpVal 0 v).length + 1 :=
  Nat.lt_succ_of_le (size_le_dumpVal 0 v)

/-- Round trip: parsing a serialised document recovers exactly the
key-sorted tree that was printed. -/
theorem Json.loads_dumps (j : Json) : Json.loads (Json.dumps j) = some (Json.sortKeys j) := by
  unfold Json.loads Json.dumps
  have hlen : (String.mk (dumpVal 0 (Json.sortKeys j))).length =
      (dumpVal 0 (Json.sortKeys j)).length := rfl
  rw [hlen]
  have hdata : (String.mk (dumpVal 0 (Json.sortKeys j))).data =
      dumpVal 0 (Json.sortKeys j) := rfl
  rw [hdata]
  have h := (parse_dump ((dumpVal 0 (Json.sortKeys j)).length + 1)).1 (Json.sortKeys j) 0 [] []
    (by intro c hc; simp at hc)
    (by intro c hc; simp at hc)
    (size_lt_dump_len (Json.sortKeys j))
  simp only [List.nil_append, List.append_nil] at h
  rw [h]
  simp [skipWs]

theorem insField_perm (p : String × Json) (l : List (String × Json)) :
    List.Perm (insField p l) (p :: l) := by
  induction l with
  | nil => simp [insField]
  | cons q qs ih =>
      rw [insField]
      split
      · exact List.Perm.refl _
      · exact (List.Perm.cons q ih).trans (List.Perm.swap p q qs)

theorem sortFields_perm (l : List (String × Json)) : List.Perm (sortFields l) l := by
  induction l with
  | nil => simp [sortFields]
  | cons p ps ih =>
      rw [sortFields]
      exact (insField_perm p (sortFields ps)).trans (List.Perm.cons p ih)

/-- Equality of JSON documents up to reordering of object keys: the notion of
"the same record" under which Python compares dicts. -/
inductive JsonEquiv : Json → Json → Prop where
  | null : JsonEquiv .null .null
  | bool (b : Bool) : JsonEquiv (.bool b) (.bool b)
  | num (n : Int) : JsonEquiv (.num n) (.num n)
  | str (s : String) : JsonEquiv (.str s) (.str s)
  | arr {xs ys : List Json} : List.Forall₂ JsonEquiv xs ys → JsonEquiv (.arr xs) (.arr ys)
  | obj {fs fs2 gs : List (String × Json)} :
      List.Perm fs fs2 →
      fs2.map Prod.fst = gs.map Prod.fst →
      List.Forall₂ JsonEquiv (fs2.map Prod.snd) (gs.map Prod.snd) →
      JsonEquiv (.obj fs) (.obj gs)

theorem sortKeysFields_keys (l : List (String × Json)) :
    (Json.sortKeysFields l).map Prod.fst = l.map Prod.fst := by
  induction l with
  | nil => rw [Json.sortKeysFields.eq_def]
  | cons f fs ih =>
      rw [Json.sortKeysFields.eq_def]
      simp only [List.map_cons]
      rw [ih]

mutual

theorem sortKeys_equiv : ∀ j : Json, JsonEquiv (Json.sortKeys j) j
  | .null => by
      rw [Json.sortKeys.eq_def]
      exact .null
  | .bool b => by
      rw [Json.sortKeys.eq_def]
      exact .bool b
  | .num n => by
      rw [Json.sortKeys.eq_def]
      exact .num n
  | .str s => by
      rw [Json.sortKeys.eq_def]
      exact .str s
  | .arr xs => by
      rw [Json.sortKeys.eq_def]
      exact .arr (sortKeysList_equiv xs)
  | .obj fs => by
      rw [Json.sortKeys.eq_def]
      exact .obj (sortFields_perm (Json.sortKeysFields fs)) (sortKeysFields_keys fs)
        (sortKeysFields_equiv fs)

theorem sortKeysList_equiv : ∀ l : List Json, List.Forall₂ JsonEquiv (Json.sortKeysList l) l
  | [] => by
      rw [Json.sortKeysList.eq_def]
      exact List.Forall₂.nil
  | x :: xs => by
      rw [Json.sortKeysList.eq_def]
      exact List.Forall₂.cons (sortKeys_equiv x) (sortKeysList_equiv xs)

theorem sortKeysFields_equiv : ∀ l : List (String × Json),
    List.Forall₂ JsonEquiv ((Json.sortKeysFields l).map Prod.snd) (l.map Prod.snd)
  | [] => by
      rw [Json.sortKeysFields.eq_def]
      exact List.Forall₂.nil
  | f :: fs => by
      rw [Json.sortKeysFields.eq_def]
      simp only [List.map_cons]
      exact List.Forall₂.cons (sortKeys_equiv f.2) (sortKeysFields_equiv fs)

end

/-- The characters removed by `DataWriter._sanitize_filename`'s first
substitution: the regex class `[<>:"/\\|?*]`. -/
def pyIllegalChar (c : Char) : Bool :=
  c = '<' || c = '>' || c = ':' || c = qCh || c = '/' || c = bsCh || c = '|' || c = '?' || c = '*'

/-- ASCII model of Python's regex `\s`. -/
def pyWsChar (c : Char) : Bool :=
  c = ' ' || c = tabCh || c = nlCh || c = crCh || c = vtCh || c = ffCh

def underscoreWs (c : Char) : Bool := c = '_' || pyWsChar c

/-- `re.sub(r'[<>:"/\\|?*]', '_', filename)`. -/
def replaceIllegal (cs : List Char) : List Char :=
  cs.map (fun c => if pyIllegalChar c then '_' else c)

mutual

/-- `re.sub(r'[_\s]+', '_', sanitized)`: each maximal run of underscores and
whitespace becomes a single underscore. -/
def collapseRuns : List Char → List Char
  | [] => []
  | c :: cs => if underscoreWs c then '_' :: skipRun cs else c :: collapseRuns cs

def skipRun : List Char → List Char
  | [] => []
  | c :: cs => if underscoreWs c then skipRun cs else c :: collapseRuns cs

end

def stripSet (c : Char) : Bool := c = '_' || c = ' '

/-- `str.strip('_ ')`. -/
def stripUndSpace (cs : List Char) : List Char :=
  ((cs.dropWhile stripSet).reverse.dropWhile stripSet).reverse

/-- `DataWriter._sanitize_filename`. -/
def sanitize_filename (s : String) : String :=
  let s1 := replaceIllegal s.data
  let s2 := collapseRuns s1
  let s3 := stripUndSpace s2
  if 200 < s3.length then String.mk (s3.take 200) else String.mk s3

/-- Result of one `DataWriter.save_university_data` call: the write event.
The `except` branch that returns `False` fires only on OS-level I/O errors,
which are outside this model. -/
structure SaveResult where
  success : Bool
  path : String
  contents : String
deriving Repr, DecidableEq

/-- `DataWriter.save_university_data`: sanitize the triple, build
`base/country/city/name.json`, write the record as indented JSON with sorted
keys (`json.dump(..., indent=2, ensure_ascii=False, sort_keys=True)`). -/
def save_university_data (base country city uni_name : String) (data_dict : Json) :
    SaveResult :=
  { success := true
    path := base ++ "/" ++ sanitize_filename country ++ "/" ++ sanitize_filename city ++
      "/" ++ sanitize_filename uni_name ++ ".json"
    contents := Json.dumps data_dict }

/-- `DataWriter.get_output_path`. -/
def get_output_path (base country city uni_name : String) : String :=
  base ++ "/" ++ sanitize_filename country ++ "/" ++ sanitize_filename city ++
    "/" ++ sanitize_filename uni_name ++ ".json"

theorem replaceIllegal_clean {l : List Char} : ∀ c ∈ replaceIllegal l, pyIllegalChar c = false := by
  intro c hc
  simp only [replaceIllegal, List.mem_map] at hc
  obtain ⟨a, ha, rfl⟩ := hc
  by_cases h : pyIllegalChar a = true
  · simp [h]
    decide
  · simp only [Bool.not_eq_true] at h
    simp [h]

mutual

theorem collapseRuns_mem : ∀ (l : List Char), ∀ c ∈ collapseRuns l,
    c = '_' ∨ (c ∈ l ∧ underscoreWs c = false)
  | [] => by simp [collapseRuns]
  | a :: l => by
      intro c hc
      rw [collapseRuns] at hc
      split at hc
      · rcases List.mem_cons.mp hc with h | h
        · exact Or.inl h
        · rcases skipRun_mem l c h with h2 | h2
          · exact Or.inl h2
          · exact Or.inr ⟨List.mem_cons_of_mem a h2.1, h2.2⟩
      · rcases List.mem_cons.mp hc with h | h
        · subst h
          rename_i hna
          exact Or.inr ⟨List.mem_cons_self _ _, by simpa using hna⟩
        · rcases collapseRuns_mem l c h with h2 | h2
          · exact Or.inl h2
          · exact Or.inr ⟨List.mem_cons_of_mem a h2.1, h2.2⟩

theorem skipRun_mem : ∀ (l : List Char), ∀ c ∈ skipRun l,
    c = '_' ∨ (c ∈ l ∧ underscoreWs c = false)
  | [] => by simp [skipRun]
  | a :: l => by
      intro c hc
      rw [skipRun] at hc
      split at hc
      · rcases skipRun_mem l c hc with h2 | h2
        · exact Or.inl h2
        · exact Or.inr ⟨List.mem_cons_of_mem a h2.1, h2.2⟩
      · rcases List.mem_cons.mp hc with h | h
        · subst h
          rename_i hna
          exact Or.inr ⟨List.mem_cons_self _ _, by simpa using hna⟩
        · rcases collapseRuns_mem l c h with h2 | h2
          · exact Or.inl h2
          · exact Or.inr ⟨List.mem_cons_of_mem a h2.1, h2.2⟩

end

theorem skipRun_head : ∀ (l : List Char), ∀ c, (skipRun l).head? = some c →
    underscoreWs c = false
  | [] => by simp [skipRun]
  | a :: l => by
      intro c hc
      rw [skipRun] at hc
      split at hc
      · exact skipRun_head l c hc
      · rename_i hna
        simp only [List.head?_cons, Option.some.injEq] at hc
        subst hc
        simpa using hna

/-- The collapse step never leaves two adjacent underscores. -/
def NoAdjUnd (l : List Char) : Prop :=
  List.Chain' (fun a b => ¬(a = '_' ∧ b = '_')) l

mutual

theorem collapseRuns_chain : ∀ (l : List Char), NoAdjUnd (collapseRuns l)
  | [] => by simp [collapseRuns, NoAdjUnd]
  | a :: l => by
      rw [NoAdjUnd, collapseRuns]
      split
      · rw [List.chain'_cons']
        refine ⟨?_, skipRun_chain l⟩
        intro y hy
        have := skipRun_head l y hy
        intro hcon
        rw [hcon.2] at this
        simp [underscoreWs] at this
      · rw [List.chain'_cons']
        refine ⟨?_, collapseRuns_chain l⟩
        intro y hy hcon
        rename_i hna
        rw [hcon.1] at hna
        simp [underscoreWs] at hna

theorem skipRun_chain : ∀ (l : List Char), NoAdjUnd (skipRun l)
  | [] => by simp [skipRun, NoAdjUnd]
  | a :: l => by
      rw [NoAdjUnd, skipRun]
      split
      · exact skipRun_chain l
      · rw [List.chain'_cons']
        refine ⟨?_, collapseRuns_chain l⟩
        intro y hy hcon
        rename_i hna
        rw [hcon.1] at hna
        simp [underscoreWs] at hna

end

theorem dropWhile_head {p : Char → Bool} : ∀ (l : List Char) (c : Char),
    (l.dropWhile p).head? = some c → p c = false
  | [], c => by simp
  | a :: l, c => by
      intro hc
      rw [List.dropWhile_cons] at hc
      split at hc
      · exact dropWhile_head l c hc
      · rename_i hna
        simp only [List.head?_cons, Option.some.injEq] at hc
        subst hc
        simpa using hna

theorem stripUndSpace_front (l : List Char) :
    stripUndSpace l <+: l.dropWhile stripSet := by
  have h := List.reverse_prefix.mpr
    (List.dropWhile_suffix (l := (l.dropWhile stripSet).reverse) stripSet)
  simpa [stripUndSpace] using h

theorem stripUndSpace_within (l : List Char) : stripUndSpace l <:+: l :=
  (stripUndSpace_front l).isInfix.trans (List.dropWhile_suffix stripSet).isInfix

theorem stripUndSpace_head (l : List Char) (c : Char)
    (hc : (stripUndSpace l).head? = some c) : stripSet c = false := by
  obtain ⟨t, ht⟩ := stripUndSpace_front l
  apply dropWhile_head l c
  rw [← ht]
  cases hsh : stripUndSpace l with
  | nil => rw [hsh] at hc; simp at hc
  | cons d ds =>
      rw [hsh] at hc
      simp only [List.head?_cons, Option.some.injEq] at hc
      simp [hc]

theorem sanitize_props (s : String) :
    (sanitize_filename s).length ≤ 200
    ∧ (∀ c ∈ (sanitize_filename s).data, pyIllegalChar c = false ∧ pyWsChar c = false)
    ∧ (∀ c, (sanitize_filename s).data.head? = some c → ¬(c = '_') ∧ ¬(c = ' '))
    ∧ NoAdjUnd (sanitize_filename s).data := by
  have hmem : ∀ c ∈ stripUndSpace (collapseRuns (replaceIllegal s.data)),
      pyIllegalChar c = false ∧ pyWsChar c = false := by
    intro c hc
    have hc2 := List.IsInfix.mem hc (stripUndSpace_within (collapseRuns (replaceIllegal s.data)))
    rcases collapseRuns_mem _ c hc2 with h | h
    · subst h
      exact ⟨by decide, by decide⟩
    · have hill := replaceIllegal_clean c h.1
      have huw := h.2
      simp only [underscoreWs, Bool.or_eq_false_iff] at huw
      exact ⟨hill, huw.2⟩
  have hchain : NoAdjUnd (stripUndSpace (collapseRuns (replaceIllegal s.data))) :=
    List.Chain'.infix (collapseRuns_chain (replaceIllegal s.data))
      (stripUndSpace_within (collapseRuns (replaceIllegal s.data)))
  have hhead : ∀ c, (stripUndSpace (collapseRuns (replaceIllegal s.data))).head? = some c →
      ¬(c = '_') ∧ ¬(c = ' ') := by
    intro c hc
    have := stripUndSpace_head _ c hc
    simp only [stripSet, Bool.or_eq_false_iff, decide_eq_false_iff_not] at this
    exact this
  unfold sanitize_filename
  dsimp only
  split
  · rename_i hlen
    refine ⟨?_, ?_, ?_, ?_⟩
    · show (List.take 200 _).length ≤ 200
      simp [List.length_take]
    · intro c hc
      exact hmem c (List.IsPrefix.mem hc (List.take_prefix 200 _))
    · intro c hc
      apply hhead c
      rw [List.head?_take] at hc
      simpa using hc
    · exact List.Chain'.prefix hchain (List.take_prefix 200 _)
  · rename_i hlen
    refine ⟨?_, hmem, hhead, hchain⟩
    show (stripUndSpace _).length ≤ 200
    omega

/-- Claim C5: `_sanitize_filename` replaces every path-illegal character
(`< > : " / \ | ? *`) with an underscore, collapses each maximal run of
whitespace and underscores to one underscore, strips leading and trailing
underscores and spaces, and caps the result at 200 characters.  The output
therefore contains no illegal character and no whitespace, has no two
adjacent underscores, does not start with an underscore or space, and has
length at most 200; in particular no `:` or `/` survives.  (The strip runs
before the length cap, exactly as in the source.) -/
theorem C5_sanitizer (s : String) :
    (sanitize_filename s).length ≤ 200
    ∧ (∀ c ∈ (sanitize_filename s).data, pyIllegalChar c = false ∧ pyWsChar c = false)
    ∧ (∀ c ∈ (sanitize_filename s).data, ¬(c = ':') ∧ ¬(c = '/'))
    ∧ (∀ c, (sanitize_filename s).data.head? = some c → ¬(c = '_') ∧ ¬(c = ' '))
    ∧ NoAdjUnd (sanitize_filename s).data := by
  obtain ⟨h1, h2, h3, h4⟩ := sanitize_props s
  refine ⟨h1, h2, ?_, h3, h4⟩
  intro c hc
  have := (h2 c hc).1
  constructor
  · intro h
    subst h
    simp [pyIllegalChar] at this
  · intro h
    subst h
    simp [pyIllegalChar] at this

/-- Witness for C5 at a concrete name with `:` and `/`. -/
theorem C5_sanitizer_witness :
    (sanitize_filename "Bilkent: University/Main").length ≤ 200
    ∧ sanitize_filename "Bilkent: University/Main" = "Bilkent_University_Main" :=
  ⟨(C5_sanitizer "Bilkent: University/Main").1, by decide⟩

/-- Claim C10: a name consisting only of path-illegal characters sanitizes to
the empty string, so `save_university_data` writes a file literally named
`.json` in the country/city directory and still reports success — the writer
never rejects a name that sanitizes to empty. -/
theorem C10_empty_name (base : String) (d : Json) :
    sanitize_filename "???" = ""
    ∧ (save_university_data base "Turkey" "Ankara" "???" d).path =
        base ++ "/Turkey/Ankara/.json"
    ∧ (save_university_data base "Turkey" "Ankara" "???" d).success = true := by
  refine ⟨by decide, ?_, rfl⟩
  show base ++ "/" ++ sanitize_filename "Turkey" ++ "/" ++ sanitize_filename "Ankara" ++
    "/" ++ sanitize_filename "???" ++ ".json" = base ++ "/Turkey/Ankara/.json"
  rw [show sanitize_filename "Turkey" = "Turkey" from by decide,
    show sanitize_filename "Ankara" = "Ankara" from by decide,
    show sanitize_filename "???" = "" from by decide]
  simp [String.append_assoc]

/-- Claim C2: writing a record for (country "Turkey", city "Ankara",
name "Bilkent University") produces the file `base/Turkey/Ankara/
Bilkent_University.json` — the very path `get_output_path` computes — whose
contents are the indented, key-sorted JSON serialisation of the record;
parsing the contents back yields the key-sorted tree, which is dict-equal
(`JsonEquiv`) to the record that was written, and the write returns True. -/
theorem C2_save_roundtrip (base : String) (record : Json) :
    (save_university_data base "Turkey" "Ankara" "Bilkent University" record).success = true
    ∧ (save_university_data base "Turkey" "Ankara" "Bilkent University" record).path =
        base ++ "/Turkey/Ankara/Bilkent_University.json"
    ∧ (save_university_data base "Turkey" "Ankara" "Bilkent University" record).path =
        get_output_path base "Turkey" "Ankara" "Bilkent University"
    ∧ Json.loads (save_university_data base "Turkey" "Ankara" "Bilkent University" record).contents
        = some (Json.sortKeys record)
    ∧ JsonEquiv (Json.sortKeys record) record := by
  refine ⟨rfl, ?_, rfl, Json.loads_dumps record, sortKeys_equiv record⟩
  show base ++ "/" ++ sanitize_filename "Turkey" ++ "/" ++ sanitize_filename "Ankara" ++
    "/" ++ sanitize_filename "Bilkent University" ++ ".json" =
      base ++ "/Turkey/Ankara/Bilkent_University.json"
  rw [show sanitize_filename "Turkey" = "Turkey" from by decide,
    show sanitize_filename "Ankara" = "Ankara" from by decide,
    show sanitize_filename "Bilkent University" = "Bilkent_University" from by decide]
  simp [String.append_assoc]

def notSlash (c : Char) : Bool := if c = '/' then false else true

/-- `re.match(r'https?://[^/]+/en/\d+/[^/]+', href)` from
`Navigator.get_university_links`: an anchored prefix match of
scheme, non-empty host, `/en/`, a non-empty digit id, `/`, and at least one
further non-slash character. -/
def matchUniPattern (s : String) : Bool :=
  match stripLead "http".data s.data with
  | none => false
  | some r1 =>
    let r2 := match r1 with
      | 's' :: t => t
      | _ => r1
    match stripLead "://".data r2 with
    | none => false
    | some r3 =>
      let host := r3.takeWhile notSlash
      if host.isEmpty then false
      else
        match stripLead "/en/".data (r3.dropWhile notSlash) with
        | none => false
        | some r4 =>
          let ds := r4.takeWhile isDigitCh
          if ds.isEmpty then false
          else
            match r4.dropWhile isDigitCh with
            | '/' :: c :: _ => notSlash c
            | _ => false

/-- A selenium anchor element as `get_university_links` sees it:
`get_attribute("href")` (possibly absent) and `.text`. -/
structure Anchor where
  href : Option String
  text : String
deriving Repr, DecidableEq

def containsSub (hay needle : List Char) : Bool :=
  match hay with
  | [] => needle.isEmpty
  | c :: t => needle.isPrefixOf (c :: t) || containsSub t needle

/-- Python's `in` on strings. -/
def strContains (hay needle : String) : Bool := containsSub hay.data needle.data

/-- Python's `str.strip()` (ASCII whitespace model). -/
def pyStrip (s : String) : String :=
  String.mk (((s.data.dropWhile pyWsChar).reverse.dropWhile pyWsChar).reverse)

def strLower (s : String) : String := String.mk (s.data.map Char.toLower)

/-- `any(keyword in text.lower() for keyword in ["university", "college",
"institute", "school"])`. -/
def hasUniKeyword (t : String) : Bool :=
  strContains (strLower t) "university" || strContains (strLower t) "college" ||
    strContains (strLower t) "institute" || strContains (strLower t) "school"

/-- One anchor's contribution to the primary pattern scan:
`if href:` then keep it when the university regex matches. -/
def matchingHref (a : Anchor) : Option String :=
  match a.href with
  | some h => if ¬(h = "") ∧ matchUniPattern h = true then some h else none
  | none => none

def matchingHrefs (links : List Anchor) : List String := links.filterMap matchingHref

/-- `list(dict.fromkeys(xs))`: first-seen-order deduplication. -/
def dedupFirstAux (seen : List String) : List String → List String
  | [] => []
  | x :: xs =>
      if x ∈ seen then dedupFirstAux seen xs else x :: dedupFirstAux (x :: seen) xs

def dedupFirst (l : List String) : List String := dedupFirstAux [] l

/-- One anchor's contribution to the keyword fallback scan. -/
def alternativeHref (a : Anchor) : Option String :=
  match a.href with
  | some h =>
      let t := pyStrip a.text
      if ¬(h = "") ∧ ¬(t = "") ∧ hasUniKeyword t = true ∧ strContains h "/en/" = true
      then some h else none
  | none => none

/-- `Navigator.get_university_links`: keep hrefs matching the university URL
pattern, deduplicate preserving first-seen order; if none matched, fall back
to anchors whose text mentions a university keyword and whose href contains
`/en/`. -/
def get_university_links (links : List Anchor) : List String :=
  let uniqueLinks := dedupFirst (matchingHrefs links)
  if uniqueLinks.isEmpty then
    let alternativeLinks := links.filterMap alternativeHref
    if ¬alternativeLinks.isEmpty then dedupFirst alternativeLinks else uniqueLinks
  else uniqueLinks

theorem dedupFirstAux_mem : ∀ (l seen : List String) (x : String),
    x ∈ dedupFirstAux seen l ↔ (x ∈ l ∧ ¬(x ∈ seen))
  | [], seen, x => by simp [dedupFirstAux]
  | a :: l, seen, x => by
      rw [dedupFirstAux]
      split
      · rename_i ha
        rw [dedupFirstAux_mem l seen x]
        simp only [List.mem_cons]
        constructor
        · rintro ⟨h1, h2⟩
          exact ⟨Or.inr h1, h2⟩
        · rintro ⟨h1 | h1, h2⟩
          · subst h1
            exact absurd ha h2
          · exact ⟨h1, h2⟩
      · rename_i ha
        simp only [List.mem_cons, dedupFirstAux_mem l (a :: seen) x]
        constructor
        · rintro (h | ⟨h1, h2⟩)
          · subst h
            exact ⟨Or.inl rfl, ha⟩
          · simp only [List.mem_cons, not_or] at h2
            exact ⟨Or.inr h1, h2.2⟩
        · rintro ⟨h1 | h1, h2⟩
          · exact Or.inl h1
          · by_cases hx : x = a
            · exact Or.inl hx
            · exact Or.inr ⟨h1, by simp [hx, h2]⟩

theorem dedupFirstAux_sublist : ∀ (l seen : List String),
    List.Sublist (dedupFirstAux seen l) l
  | [], seen => by simp [dedupFirstAux]
  | a :: l, seen => by
      rw [dedupFirstAux]
      split
      · exact (dedupFirstAux_sublist l seen).cons a
      · exact (dedupFirstAux_sublist l (a :: seen)).cons₂ a

theorem dedupFirstAux_nodup : ∀ (l seen : List String), (dedupFirstAux seen l).Nodup
  | [], seen => by simp [dedupFirstAux]
  | a :: l, seen => by
      rw [dedupFirstAux]
      split
      · exact dedupFirstAux_nodup l seen
      · refine List.Nodup.cons ?_ (dedupFirstAux_nodup l (a :: seen))
        intro hmem
        have := (dedupFirstAux_mem l (a :: seen) a).mp hmem
        simp at this

theorem dedupFirst_mem (l : List String) (x : String) : x ∈ dedupFirst l ↔ x ∈ l := by
  rw [dedupFirst, dedupFirstAux_mem]
  simp

theorem dedupFirst_ne_nil {l : List String} (h : ¬(l = [])) : ¬(dedupFirst l = []) := by
  cases l with
  | nil => exact absurd rfl h
  | cons a l =>
      intro hcon
      have : a ∈ dedupFirst (a :: l) := (dedupFirst_mem _ a).mpr (by simp)
      rw [hcon] at this
      simp at this

/-- Claim C1 (amended): when at least one anchor href matches the university
URL pattern, `get_university_links` returns exactly the distinct matching
URLs, deduplicated by URL in first-seen order (a sublist of the matching
scan, with no duplicates), and the result depends only on the subsequence of
matching anchors — not on how non-matching anchors are interleaved.  The
amendment is needed because with zero matching anchors the code falls back
to a keyword scan that can return non-matching URLs. -/
theorem C1_university_link_discovery (links : List Anchor)
    (h : ¬(matchingHrefs links = [])) :
    get_university_links links = dedupFirst (matchingHrefs links)
    ∧ (get_university_links links).Nodup
    ∧ (∀ u, u ∈ get_university_links links ↔ u ∈ matchingHrefs links)
    ∧ List.Sublist (get_university_links links) (matchingHrefs links)
    ∧ (∀ links2, matchingHrefs links2 = matchingHrefs links →
        ¬(matchingHrefs links2 = []) →
        get_university_links links2 = get_university_links links) := by
  have hmain : get_university_links links = dedupFirst (matchingHrefs links) := by
    rw [get_university_links]
    have : (dedupFirst (matchingHrefs links)).isEmpty = false := by
      cases hd : dedupFirst (matchingHrefs links) with
      | nil => exact absurd hd (dedupFirst_ne_nil h)
      | cons a l => rfl
    simp [this]
  refine ⟨hmain, ?_, ?_, ?_, ?_⟩
  · rw [hmain]
    exact dedupFirstAux_nodup _ _
  · intro u
    rw [hmain]
    exact dedupFirst_mem _ u
  · rw [hmain]
    exact dedupFirstAux_sublist _ _
  · intro links2 heq h2
    have hmain2 : get_university_links links2 = dedupFirst (matchingHrefs links2) := by
      rw [get_university_links]
      have : (dedupFirst (matchingHrefs links2)).isEmpty = false := by
        cases hd : dedupFirst (matchingHrefs links2) with
        | nil => exact absurd hd (dedupFirst_ne_nil h2)
        | cons a l => rfl
      simp [this]
    rw [hmain, hmain2, heq]

/-- Witness for C1 on a concrete listing with one matching and one
non-matching anchor, in both interleavings. -/
theorem C1_university_link_discovery_witness :
    ¬(matchingHrefs [Anchor.mk (some "https://www.unipage.net/en/9801/bilkent_university")
        "Bilkent University", Anchor.mk (some "https://www.unipage.net/en/study_countries")
        "Countries"] = [])
    ∧ get_university_links [Anchor.mk (some "https://www.unipage.net/en/9801/bilkent_university")
        "Bilkent University", Anchor.mk (some "https://www.unipage.net/en/study_countries")
        "Countries"] =
      dedupFirst (matchingHrefs [Anchor.mk
        (some "https://www.unipage.net/en/9801/bilkent_university") "Bilkent University",
        Anchor.mk (some "https://www.unipage.net/en/study_countries") "Countries"]) :=
  ⟨by decide, (C1_university_link_discovery _ (by decide)).1⟩

/-- Counterexample to C1 as stated: with zero matching anchors (N = 0) and one
non-matching anchor whose text contains "University" and whose href contains
"/en/", discovery returns that non-matching URL instead of the empty list of
matching URLs. -/
theorem C1_counterexample :
    matchingHrefs [Anchor.mk (some "https://www.unipage.net/en/universities_turkey")
      "Bilkent University"] = []
    ∧ get_university_links [Anchor.mk (some "https://www.unipage.net/en/universities_turkey")
        "Bilkent University"] = ["https://www.unipage.net/en/universities_turkey"] := by
  decide

/-- Modelled from the spec: `WebNavigator.get_university_urls_from_sitemap` is
imported by `scraper/main.py`, but the class `WebNavigator` is not among the
sources in the repository; per the spec the method fetches the site's XML
sitemap and filters its `loc` entries by the same university id/slug URL
pattern.  The already-fetched `loc` values are the input here. -/
def get_university_urls_from_sitemap (locs : List String) : List String :=
  locs.filter matchUniPattern

/-- The country-level fallback of `main` (scraper/main.py): if the country
page yields no links, take the sitemap URLs capped at the first 50; if that
is also empty, the country is skipped (`continue`), modelled as `none`. -/
def resolveCountryLinks (pageAnchors : List Anchor) (sitemapLocs : List String) :
    Option (List String) :=
  let universityLinks := get_university_links pageAnchors
  if ¬universityLinks.isEmpty then some universityLinks
  else
    let sitemapLinks := get_university_urls_from_sitemap sitemapLocs
    if ¬sitemapLinks.isEmpty then some (sitemapLinks.take 50)
    else none

/-- The country loop of `main`: countries whose resolution fails are skipped
and processing continues with the rest. -/
def processCountries (cs : List (List Anchor × List String)) : List (List String) :=
  cs.filterMap (fun c => resolveCountryLinks c.1 c.2)

/-- Claim C4: when a country page yields zero university links, the run falls
back to the sitemap filtered by the id/slug pattern (capped to 50 in the
entry point); a sitemap with zero matching `loc` entries yields the empty
list rather than an error, the country is skipped, and the loop continues
with the remaining countries.  (Reason: spec-modelled — see
`get_university_urls_from_sitemap`.) -/
theorem C4_sitemap_fallback (locs : List String) (anchors : List Anchor)
    (hlocs : ∀ l ∈ locs, matchUniPattern l = false)
    (hpage : get_university_links anchors = []) :
    get_university_urls_from_sitemap locs = []
    ∧ resolveCountryLinks anchors locs = none
    ∧ (∀ rest, processCountries ((anchors, locs) :: rest) = processCountries rest)
    ∧ (∀ locs2 r, resolveCountryLinks anchors locs2 = some r → r.length ≤ 50) := by
  have hempty : get_university_urls_from_sitemap locs = [] := by
    rw [get_university_urls_from_sitemap, List.filter_eq_nil_iff]
    exact fun l hl => by simp [hlocs l hl]
  have hres : resolveCountryLinks anchors locs = none := by
    rw [resolveCountryLinks, hpage, hempty]
    simp
  refine ⟨hempty, hres, ?_, ?_⟩
  · intro rest
    rw [processCountries, List.filterMap_cons]
    simp only [hres]
    rfl
  · intro locs2 r hr
    rw [resolveCountryLinks, hpage] at hr
    simp only [List.isEmpty_nil, not_true, if_false, ite_false] at hr
    split at hr
    · simp only [Option.some.injEq] at hr
      subst hr
      simp [List.length_take]
    · exact absurd hr (by simp)

/-- Witness for C4: an empty country page and a sitemap whose only `loc` is
the study-countries page (which does not match the id/slug pattern). -/
theorem C4_sitemap_fallback_witness :
    (∀ l ∈ ["https://www.unipage.net/en/study_countries"], matchUniPattern l = false)
    ∧ get_university_links ([] : List Anchor) = []
    ∧ get_university_urls_from_sitemap ["https://www.unipage.net/en/study_countries"] = []
    ∧ resolveCountryLinks [] ["https://www.unipage.net/en/study_countries"] = none :=
  ⟨by decide, by decide,
    (C4_sitemap_fallback _ [] (by decide) (by decide)).1,
    (C4_sitemap_fallback _ [] (by decide) (by decide)).2.1⟩

/-- `dict.get(key, default)`: on a non-dict receiver Python raises
AttributeError, modelled as `none`. -/
def pyGet (j : Json) (k : String) (dflt : Json) : Option Json :=
  match j with
  | .obj fs =>
      match fs.find? (fun f => f.1 == k) with
      | some f => some f.2
      | none => some dflt
  | _ => none

/-- Python `for x in v`: lists iterate elements, strings iterate one-character
strings, dicts iterate keys; other values raise TypeError (`none`). -/
def pyIter (j : Json) : Option (List Json) :=
  match j with
  | .arr xs => some xs
  | .str s => some (s.data.map (fun c => Json.str (String.mk [c])))
  | .obj fs => some (fs.map (fun f => Json.str f.1))
  | _ => none

/-- Python `len`. -/
def pyLen (j : Json) : Option Nat :=
  match j with
  | .arr xs => some xs.length
  | .str s => some s.length
  | .obj fs => some fs.length
  | _ => none

/-- Whether a value may be used in `level in counts` (dict membership):
lists and dicts are unhashable and raise TypeError. -/
def pyHashable (j : Json) : Bool :=
  match j with
  | .arr _ => false
  | .obj _ => false
  | _ => true

/-- The `try` body of `UniversityExtractor._count_extracted_programs`
computing `counts["Total"]`; `none` models an exception, caught by the
function to yield Total 0. -/
def tryCountPrograms (data : Json) : Option Nat := do
  let uni ← pyGet data "university" (.obj [])
  let sp ← pyGet uni "study_programs" (.arr [])
  let levels ← pyIter sp
  levels.foldlM (fun acc ld => do
    let level ← pyGet ld "level" (.str "Unknown")
    let facs ← pyGet ld "faculties" (.arr [])
    let fl ← pyIter facs
    let lc ← fl.foldlM (fun c fac => do
      let progs ← pyGet fac "programs" (.arr [])
      let n ← pyLen progs
      pure (c + n)) 0
    if pyHashable level then pure (acc + lc) else none) 0

/-- `_count_extracted_programs(data).get("Total", 0)` for an already-parsed
value: non-dict input or an internal exception yields 0. -/
def countTotalParsed (data : Json) : Nat :=
  match data with
  | .obj _ => (tryCountPrograms data).getD 0
  | _ => 0

/-- `_count_extracted_programs` applied to the raw AI reply string, as the
multi-pass driver does: the string is first parsed as JSON, and an
unparseable string counts as Total 0. -/
def countTotalStr (s : String) : Nat :=
  match Json.loads s with
  | some j => countTotalParsed j
  | none => 0

/-- `UniversityExtractor._extract_missing_programs` for one follow-up call.
`api` is the AI endpoint: `Except.error` models `_call_ai_api` raising,
`Except.ok reply` the returned completion text.  The Bool records whether
the follow-up API call was issued.  The source passes `_call_ai_api`'s raw
string where a dict is expected, so `missing_data['missing_programs']`
raises TypeError on any reply containing that substring, and the outer
`except` returns `current_data` unchanged. -/
def extract_missing_programs (currentData : String) (api : Except Unit String) :
    String × Bool :=
  if 86 ≤ countTotalStr currentData then
    (currentData, false)
  else
    match api with
    | .error _ => (currentData, true)
    | .ok reply =>
        if ¬(reply = "") ∧ strContains reply "missing_programs" = true then
          (currentData, true)
        else
          (currentData, true)

/-- `UniversityExtractor._multi_pass_extraction`: pass 1 yields a reply (or
raises, caught to None); a program count strictly below 86 triggers the
targeted pass-2 extraction.  Returns the final value (`none` models Python
None) and whether a follow-up was issued. -/
def multi_pass_extraction (pass1 pass2api : Except Unit String) :
    Option String × Bool :=
  match pass1 with
  | .error _ => (none, false)
  | .ok ud =>
      if ud = "" then (some ud, false)
      else if 86 ≤ countTotalStr ud then (some ud, false)
      else
        let r := extract_missing_programs ud pass2api
        (some r.1, r.2)

/-- Claim C3: a non-JSON AI reply leaves the previously extracted record
unchanged, and no exception escapes `_extract_missing_programs` (the model
is a total function whose result is the unchanged record). -/
theorem C3_malformed_reply_preserves_record (current reply : String)
    (hnj : Json.loads reply = none) :
    (extract_missing_programs current (.ok reply)).1 = current := by
  rw [extract_missing_programs]
  split
  · rfl
  · split <;> rfl

/-- Witness for C3 at a concrete non-JSON reply. -/
theorem C3_malformed_reply_preserves_record_witness :
    Json.loads "Sorry, the missing_programs could not be located." = none
    ∧ (extract_missing_programs "prior heuristic record"
        (.ok "Sorry, the missing_programs could not be located.")).1 =
      "prior heuristic record" :=
  ⟨by decide, C3_malformed_reply_preserves_record _ _ (by decide)⟩

/-- Claim C7: the multi-pass extraction issues the follow-up (second-pass)
prompt iff the counted total of extracted programs is strictly below the
hardcoded target 86; at 86 or more the first-pass result is returned
unchanged with no follow-up. -/
theorem C7_target_86 (s : String) (api : Except Unit String) (hs : ¬(s = "")) :
    ((multi_pass_extraction (.ok s) api).2 = true ↔ countTotalStr s < 86)
    ∧ (86 ≤ countTotalStr s → multi_pass_extraction (.ok s) api = (some s, false)) := by
  constructor
  · rw [multi_pass_extraction]
    simp only [hs, if_false, ite_false]
    by_cases h86 : 86 ≤ countTotalStr s
    · simp only [h86, if_true, ite_true]
      simp
      omega
    · have hlt : countTotalStr s < 86 := by omega
      simp only [h86, if_false, ite_false]
      rw [extract_missing_programs.eq_def]
      simp only [h86, if_false, ite_false]
      cases api with
      | error e => simpa using hlt
      | ok reply =>
          split <;> simpa using hlt
  · intro h86
    rw [multi_pass_extraction]
    simp [hs, h86]

/-- Witness for C7 at a concrete non-empty first-pass reply. -/
theorem C7_target_86_witness :
    ¬(("not json" : String) = "")
    ∧ (((multi_pass_extraction (.ok "not json") (.error ())).2 = true) ↔
        countTotalStr "not json" < 86) :=
  ⟨by decide, (C7_target_86 "not json" (.error ()) (by decide)).1⟩

/-- A faculty entry in the nested `study_programs` structure:
`{"name": ..., "programs": [...]}`. -/
structure Faculty where
  name : String
  programs : List Json
deriving Repr, DecidableEq

/-- A level entry: `{"level": ..., "faculties": [...]}`. -/
structure LevelEntry where
  level : String
  faculties : List Faculty
deriving Repr, DecidableEq

/-- One element of the AI's `missing_programs` list:
`{"level": ..., "faculty": ..., "program": {...}}`. -/
structure MissingEntry where
  level : String
  faculty : String
  program : Json
deriving Repr, DecidableEq

/-- The faculty scan inside `_merge_missing_programs`: append the program to
the first faculty whose name matches, else append a new faculty entry. -/
def insertFaculty (fac : String) (p : Json) : List Faculty → List Faculty
  | [] => [⟨fac, [p]⟩]
  | f :: fs =>
      if f.name = fac then ⟨f.name, f.programs ++ [p]⟩ :: fs
      else f :: insertFaculty fac p fs

/-- The level scan inside `_merge_missing_programs`: insert into the first
matching level, else append a new level entry. -/
def insertLevel : List LevelEntry → MissingEntry → List LevelEntry
  | [], m => [⟨m.level, [⟨m.faculty, [m.program]⟩]⟩]
  | l :: ls, m =>
      if l.level = m.level then ⟨l.level, insertFaculty m.faculty m.program l.faculties⟩ :: ls
      else l :: insertLevel ls m

/-- `UniversityExtractor._merge_missing_programs`. -/
def merge_missing_programs (current : List LevelEntry) (missing : List MissingEntry) :
    List LevelEntry :=
  missing.foldl insertLevel current

/-- The program `p` is filed under level `lvl` and faculty `fac`. -/
def HasProgram (levels : List LevelEntry) (lvl fac : String) (p : Json) : Prop :=
  ∃ e ∈ levels, e.level = lvl ∧ ∃ f ∈ e.faculties, f.name = fac ∧ p ∈ f.programs

theorem insertFaculty_preserves {fs : List Faculty} {fc : String} {q : Json}
    (fac : String) (p : Json)
    (h : ∃ f ∈ fs, f.name = fc ∧ q ∈ f.programs) :
    ∃ f ∈ insertFaculty fac p fs, f.name = fc ∧ q ∈ f.programs := by
  induction fs with
  | nil => simp at h
  | cons g gs ih =>
      obtain ⟨f, hf, hname, hq⟩ := h
      rw [insertFaculty]
      split
      · rcases List.mem_cons.mp hf with h1 | h1
        · subst h1
          exact ⟨⟨f.name, f.programs ++ [p]⟩, by simp, hname, by simp [hq]⟩
        · exact ⟨f, by simp [h1], hname, hq⟩
      · rcases List.mem_cons.mp hf with h1 | h1
        · subst h1
          exact ⟨f, by simp, hname, hq⟩
        · obtain ⟨f2, hf2, hn2, hq2⟩ := ih ⟨f, h1, hname, hq⟩
          exact ⟨f2, by simp [hf2], hn2, hq2⟩

theorem insertFaculty_inserts (fac : String) (p : Json) (fs : List Faculty) :
    ∃ f ∈ insertFaculty fac p fs, f.name = fac ∧ p ∈ f.programs := by
  induction fs with
  | nil => exact ⟨⟨fac, [p]⟩, by simp [insertFaculty], rfl, by simp⟩
  | cons g gs ih =>
      rw [insertFaculty]
      split
      · rename_i hg
        exact ⟨⟨g.name, g.programs ++ [p]⟩, by simp, hg, by simp⟩
      · obtain ⟨f, hf, hn, hq⟩ := ih
        exact ⟨f, by simp [hf], hn, hq⟩

theorem insertFaculty_new (fac : String) (p : Json) (fs : List Faculty)
    (h : ∀ f ∈ fs, ¬(f.name = fac)) :
    insertFaculty fac p fs = fs ++ [⟨fac, [p]⟩] := by
  induction fs with
  | nil => simp [insertFaculty]
  | cons g gs ih =>
      rw [insertFaculty, if_neg (h g (by simp))]
      rw [ih (fun f hf => h f (by simp [hf]))]
      simp

theorem insertLevel_preserves {levels : List LevelEntry} {lv fc : String} {q : Json}
    (m : MissingEntry) (h : HasProgram levels lv fc q) :
    HasProgram (insertLevel levels m) lv fc q := by
  induction levels with
  | nil => simp [HasProgram] at h
  | cons e es ih =>
      obtain ⟨e2, he2, hlv, hfac⟩ := h
      rw [insertLevel]
      split
      · rcases List.mem_cons.mp he2 with h1 | h1
        · subst h1
          exact ⟨⟨e2.level, insertFaculty m.faculty m.program e2.faculties⟩, by simp, hlv,
            insertFaculty_preserves m.faculty m.program hfac⟩
        · exact ⟨e2, by simp [h1], hlv, hfac⟩
      · rcases List.mem_cons.mp he2 with h1 | h1
        · subst h1
          exact ⟨e2, by simp, hlv, hfac⟩
        · obtain ⟨e3, he3, hl3, hf3⟩ := ih ⟨e2, h1, hlv, hfac⟩
          exact ⟨e3, by simp [he3], hl3, hf3⟩

theorem insertLevel_inserts (levels : List LevelEntry) (m : MissingEntry) :
    HasProgram (insertLevel levels m) m.level m.faculty m.program := by
  induction levels with
  | nil =>
      exact ⟨⟨m.level, [⟨m.faculty, [m.program]⟩]⟩, by simp [insertLevel], rfl,
        ⟨m.faculty, [m.program]⟩, by simp, rfl, by simp⟩
  | cons e es ih =>
      rw [insertLevel]
      split
      · rename_i he
        exact ⟨⟨e.level, insertFaculty m.faculty m.program e.faculties⟩, by simp, he,
          insertFaculty_inserts m.faculty m.program e.faculties⟩
      · obtain ⟨e2, he2, hl2, hf2⟩ := ih
        exact ⟨e2, by simp [he2], hl2, hf2⟩

theorem insertLevel_new (levels : List LevelEntry) (m : MissingEntry)
    (h : ∀ e ∈ levels, ¬(e.level = m.level)) :
    insertLevel levels m = levels ++ [⟨m.level, [⟨m.faculty, [m.program]⟩]⟩] := by
  induction levels with
  | nil => simp [insertLevel]
  | cons e es ih =>
      rw [insertLevel, if_neg (h e (by simp))]
      rw [ih (fun e2 he2 => h e2 (by simp [he2]))]
      simp

theorem merge_preserves {current : List LevelEntry} {lv fc : String} {q : Json}
    (missing : List MissingEntry) (h : HasProgram current lv fc q) :
    HasProgram (merge_missing_programs current missing) lv fc q := by
  induction missing generalizing current with
  | nil => exact h
  | cons m ms ih =>
      rw [merge_missing_programs, List.foldl_cons]
      exact ih (insertLevel_preserves m h)

theorem merge_inserts (current : List LevelEntry) (missing : List MissingEntry) :
    ∀ m ∈ missing,
      HasProgram (merge_missing_programs current missing) m.level m.faculty m.program := by
  induction missing generalizing current with
  | nil => simp
  | cons m0 ms ih =>
      intro m hm
      rw [merge_missing_programs, List.foldl_cons]
      rcases List.mem_cons.mp hm with h1 | h1
      · subst h1
        exact merge_preserves ms (insertLevel_inserts current m)
      · exact ih (insertLevel current m0) m h1

/-- Claim C6: merging the AI's missing-program entries into the nested
`study_programs` structure (a) keeps every program already present in
place, (b) files each missing entry's program under its level and faculty
name, (c) creates a new faculty entry (appended, holding just that program)
when no faculty of the level matches by name, and (d) creates a new level
entry when no level matches. -/
theorem C6_merge_missing_programs (current : List LevelEntry)
    (missing : List MissingEntry) (m : MissingEntry) (facs : List Faculty)
    (hfac : ∀ f ∈ facs, ¬(f.name = m.faculty))
    (hlev : ∀ e ∈ current, ¬(e.level = m.level)) :
    (∀ lv fc q, HasProgram current lv fc q →
      HasProgram (merge_missing_programs current missing) lv fc q)
    ∧ (∀ m2 ∈ missing,
        HasProgram (merge_missing_programs current missing) m2.level m2.faculty m2.program)
    ∧ insertFaculty m.faculty m.program facs = facs ++ [⟨m.faculty, [m.program]⟩]
    ∧ insertLevel current m = current ++ [⟨m.level, [⟨m.faculty, [m.program]⟩]⟩] :=
  ⟨fun _ _ _ h => merge_preserves missing h, merge_inserts current missing,
    insertFaculty_new m.faculty m.program facs hfac, insertLevel_new current m hlev⟩

/-- Witness for C6: a concrete record with one Bachelor faculty, one missing
Master entry; the merge keeps the old program, adds the new one, and both
the fresh-faculty and fresh-level equations hold. -/
theorem C6_merge_missing_programs_witness :
    (∀ f ∈ [Faculty.mk "Faculty of Law" [Json.str "Law"]],
      ¬(f.name = "Faculty of Engineering"))
    ∧ (∀ e ∈ [LevelEntry.mk "Bachelor" [Faculty.mk "Faculty of Law" [Json.str "Law"]]],
      ¬(e.level = "Master"))
    ∧ HasProgram
        (merge_missing_programs
          [LevelEntry.mk "Bachelor" [Faculty.mk "Faculty of Law" [Json.str "Law"]]]
          [MissingEntry.mk "Master" "Faculty of Engineering" (Json.str "Robotics")])
        "Master" "Faculty of Engineering" (Json.str "Robotics")
    ∧ HasProgram
        (merge_missing_programs
          [LevelEntry.mk "Bachelor" [Faculty.mk "Faculty of Law" [Json.str "Law"]]]
          [MissingEntry.mk "Master" "Faculty of Engineering" (Json.str "Robotics")])
        "Bachelor" "Faculty of Law" (Json.str "Law") := by
  have h := C6_merge_missing_programs
    [LevelEntry.mk "Bachelor" [Faculty.mk "Faculty of Law" [Json.str "Law"]]]
    [MissingEntry.mk "Master" "Faculty of Engineering" (Json.str "Robotics")]
    (MissingEntry.mk "Master" "Faculty of Engineering" (Json.str "Robotics"))
    [Faculty.mk "Faculty of Law" [Json.str "Law"]]
    (by decide) (by decide)
  refine ⟨by decide, by decide,
    h.2.1 (MissingEntry.mk "Master" "Faculty of Engineering" (Json.str "Robotics"))
      (List.mem_singleton.mpr rfl), ?_⟩
  apply h.1
  exact ⟨LevelEntry.mk "Bachelor" [Faculty.mk "Faculty of Law" [Json.str "Law"]], by simp,
    rfl, Faculty.mk "Faculty of Law" [Json.str "Law"], by simp, rfl, by simp⟩

/-- Parsed HTML as BeautifulSoup exposes it: element nodes with tag,
attributes and children, and text nodes. -/
inductive HNode where
  | elem (tag : String) (attrs : List (String × String)) (children : List HNode)
  | text (s : String)
deriving Repr

mutual

/-- BS4 `.text`: concatenation of all descendant strings in order. -/
def nodeTexts : HNode → List Char
  | .text s => s.data
  | .elem _ _ children => nodeTextsList children

def nodeTextsList : List HNode → List Char
  | [] => []
  | n :: ns => nodeTexts n ++ nodeTextsList ns

end

/-- BS4 `.string`: the single string of a chain of single-child tags. -/
def nodeString : HNode → Option String
  | .text s => some s
  | .elem _ _ [c] => nodeString c
  | .elem _ _ _ => none

mutual

/-- All elements of a subtree in document (preorder) order, each carried with
its whole subtree. -/
def flattenElems : HNode → List HNode
  | .text _ => []
  | .elem t a c => .elem t a c :: flattenElemsList c

def flattenElemsList : List HNode → List HNode
  | [] => []
  | n :: ns => flattenElems n ++ flattenElemsList ns

end

def docElems (doc : List HNode) : List HNode := flattenElemsList doc

def tagOf : HNode → String
  | .elem t _ _ => t
  | .text _ => ""

def isTag (t : String) (n : HNode) : Bool := tagOf n == t

/-- `soup.find(tag)`. -/
def findTag (doc : List HNode) (t : String) : Option HNode :=
  (docElems doc).find? (isTag t)

/-- `soup.find('div', text=re.compile(pat))`: index of the first div whose
`.string` contains `pat` (`re.search` of a literal pattern). -/
def findDivWithString (doc : List HNode) (pat : String) : Option Nat :=
  (docElems doc).findIdx? (fun n => isTag "div" n &&
    (match nodeString n with
     | some s => strContains s pat
     | none => false))

/-- `elem.find_next('div')`: the next div strictly after position `i` in
document order. -/
def findNextTag (doc : List HNode) (i : Nat) (t : String) : Option HNode :=
  ((docElems doc).drop (i + 1)).find? (isTag t)

def attrOf (n : HNode) (k : String) : Option String :=
  match n with
  | .elem _ attrs _ => (attrs.find? (fun a => a.1 == k)).map Prod.snd
  | .text _ => none

/-- `soup.find('a', href=re.compile('^http'))`. -/
def findHttpAnchor (doc : List HNode) : Option HNode :=
  (docElems doc).find? (fun n => isTag "a" n &&
    (match attrOf n "href" with
     | some h => "http".data.isPrefixOf h.data
     | none => false))

/-- `elem.find_all('div')`: div descendants (excluding the element itself). -/
def descendantDivs (n : HNode) : List HNode :=
  match n with
  | .elem _ _ c => (flattenElemsList c).filter (isTag "div")
  | .text _ => []

def isDigitComma (c : Char) : Bool := isDigitCh c || c = ','

def notComma (c : Char) : Bool := if c = ',' then false else true

/-- The text matched by `re.search(r'(\d[\d,]*\.?\d*)', text)` starting at a
digit `c`. -/
def amountAt (c : Char) (cs : List Char) : List Char :=
  let run := cs.takeWhile isDigitComma
  let rest := cs.dropWhile isDigitComma
  match rest with
  | '.' :: r2 => c :: run ++ '.' :: r2.takeWhile isDigitCh
  | _ => c :: run

/-- Leftmost match of the amount regex. -/
def findAmount : List Char → Option (List Char)
  | [] => none
  | c :: cs => if isDigitCh c then some (amountAt c cs) else findAmount cs

/-- Leftmost match of `re.search(r'(USD|EUR|TRY)', text)`. -/
def findCurrency : List Char → Option String
  | [] => none
  | c :: cs =>
      if "USD".data.isPrefixOf (c :: cs) then some "USD"
      else if "EUR".data.isPrefixOf (c :: cs) then some "EUR"
      else if "TRY".data.isPrefixOf (c :: cs) then some "TRY"
      else findCurrency cs

def feePeriod (text : String) : String :=
  if strContains (strLower text) "semester" = true then "semester"
  else if strContains (strLower text) "month" = true then "month"
  else "year"

/-- One parsed fee: `{'amount': ..., 'currency': ..., 'period': ...}`.  The
amount is kept as the matched decimal literal with commas removed (the
source feeds it to `float`). -/
structure FeeInfo where
  amount : Option String
  currency : String
  period : String
deriving Repr, DecidableEq

/-- `Extractor._extract_fee_info`: total — every branch of the `try` body is
exception-free, so the `except: return {}` is dead code. -/
def extract_fee_info (text : String) : FeeInfo :=
  { amount := (findAmount text.data).map (fun l => String.mk (l.filter notComma))
    currency := (findCurrency text.data).getD "USD"
    period := feePeriod text }

/-- The record `Extractor.extract_common_info` builds (field `uniType`
models the source's `type` key; `country` is hardcoded "Turkey"). -/
structure CommonInfo where
  name : String
  uniType : String
  country : String
  city : String
  website : String
  description : String
  rankings : List (String × Int)
  tuition_fees : List (String × FeeInfo)
deriving Repr, DecidableEq

/-- Ambient process state available to the extractor (clock, environment):
`extract_common_info` reads none of it, which claim C8 makes observable. -/
structure World where
  clockNanos : Nat
  envVars : List (String × String)
deriving Repr

/-- Python dict assignment `d[k] = v`: update in place, else append. -/
def dictSet {α : Type} (d : List (String × α)) (k : String) (v : α) :
    List (String × α) :=
  match d with
  | [] => [(k, v)]
  | (k2, v2) :: rest => if k2 = k then (k2, v) :: rest else (k2, v2) :: dictSet rest k v

/-- `int(re.search(r'\d+', text).group())`; `none` models the
AttributeError when no digit occurs. -/
def firstNat : List Char → Option Nat
  | [] => none
  | c :: cs => if isDigitCh c then some (natFromDigits (c :: cs.takeWhile isDigitCh))
               else firstNat cs

/-- The rankings loop: a QS/THE item without digits raises (propagating out
of the whole extraction). -/
def rankingsOf (items : List HNode) : Option (List (String × Int)) :=
  items.foldlM (fun d item => do
    let t := pyStrip (String.mk (nodeTexts item))
    if strContains t "QS" = true then do
      let v ← firstNat t.data
      pure (dictSet d "QS_World_University_Rankings" (v : Int))
    else if strContains t "THE" = true then do
      let v ← firstNat t.data
      pure (dictSet d "THE_Ranking" (v : Int))
    else pure d) []

/-- The tuition loop (exception-free). -/
def tuitionOf (items : List HNode) : List (String × FeeInfo) :=
  items.foldl (fun d item =>
    let t := pyStrip (String.mk (nodeTexts item))
    if strContains t "Bachelor" = true then dictSet d "bachelor" (extract_fee_info t)
    else if strContains t "Master" = true then dictSet d "master" (extract_fee_info t)
    else if strContains t "Doctorate" = true then dictSet d "doctorate" (extract_fee_info t)
    else d) []

/-- The `Type:` quick-fact: `'Unknown'` when the label div is missing,
exception (`none`) when `find_next('div')` fails after a found label. -/
def typeStep (doc : List HNode) : Option String :=
  match findDivWithString doc "Type:" with
  | none => some "Unknown"
  | some i => (findNextTag doc i "div").map (fun n => pyStrip (String.mk (nodeTexts n)))

/-- The `Location:` text, `''` when the label div is missing. -/
def locationStep (doc : List HNode) : Option String :=
  match findDivWithString doc "Location:" with
  | none => some ""
  | some i => (findNextTag doc i "div").map (fun n => pyStrip (String.mk (nodeTexts n)))

/-- The `About` description, `''` when the label div is missing. -/
def descriptionStep (doc : List HNode) : Option String :=
  match findDivWithString doc "About" with
  | none => some ""
  | some i => (findNextTag doc i "div").map (fun n => pyStrip (String.mk (nodeTexts n)))

/-- The rankings dict: empty when the section is absent. -/
def rankingsStep (doc : List HNode) : Option (List (String × Int)) :=
  match findDivWithString doc "Rankings" with
  | none => some []
  | some i => do
      let container ← findNextTag doc i "div"
      rankingsOf (descendantDivs container)

/-- The tuition dict: empty when the section is absent. -/
def tuitionStep (doc : List HNode) : Option (List (String × FeeInfo)) :=
  match findDivWithString doc "Tuition fees" with
  | none => some []
  | some i => do
      let container ← findNextTag doc i "div"
      pure (tuitionOf (descendantDivs container))

/-- `Extractor.extract_common_info`: heuristic extraction over the parsed
document; `none` models the `except` branch returning Python None.  The
`World` argument is the ambient state the function could read but does not. -/
def extract_common_info (w : World) (doc : List HNode) : Option CommonInfo := do
  let h1 ← findTag doc "h1"
  let name := pyStrip (String.mk (nodeTexts h1))
  let uniType ← typeStep doc
  let locationText ← locationStep doc
  let city := if locationText = "" then "Unknown"
    else pyStrip (String.mk (locationText.data.takeWhile notComma))
  let website := match findHttpAnchor doc with
    | some n => (attrOf n "href").getD ""
    | none => ""
  let description ← descriptionStep doc
  let rankings ← rankingsStep doc
  let tuition ← tuitionStep doc
  pure { name := name, uniType := uniType, country := "Turkey", city := city,
         website := website, description := description, rankings := rankings,
         tuition_fees := tuition }

/-- Claim C8: heuristic extraction is deterministic — its result depends only
on the parsed document, not on any ambient state (clock, environment), so
running it twice on the same fixture yields identical records (and hence
byte-identical serialisations). -/
theorem C8_heuristic_determinism (w1 w2 : World) (doc : List HNode) :
    extract_common_info w1 doc = extract_common_info w2 doc := rfl

/-- Claim C9: when the Rankings or Tuition-fees sections are absent the
extractor returns empty collections for those fields (no error), and fee
parsing always yields a record whose currency defaults to "USD" when no
known code appears and whose period is "semester"/"month" when the text
mentions those words, else "year". -/
theorem C9_fee_and_absence (w : World) (doc : List HNode) (r : CommonInfo)
    (hr : extract_common_info w doc = some r)
    (hnoRank : findDivWithString doc "Rankings" = none)
    (hnoTuition : findDivWithString doc "Tuition fees" = none) :
    r.rankings = [] ∧ r.tuition_fees = []
    ∧ (∀ text, findCurrency text.data = none → (extract_fee_info text).currency = "USD")
    ∧ (∀ text, strContains (strLower text) "semester" = true →
        (extract_fee_info text).period = "semester")
    ∧ (∀ text, strContains (strLower text) "semester" = false →
        strContains (strLower text) "month" = true →
        (extract_fee_info text).period = "month")
    ∧ (∀ text, strContains (strLower text) "semester" = false →
        strContains (strLower text) "month" = false →
        (extract_fee_info text).period = "year") := by
  have hfee1 : ∀ text : String, findCurrency text.data = none →
      (extract_fee_info text).currency = "USD" := by
    intro text h
    simp [extract_fee_info, h]
  have hfee2 : ∀ text : String, strContains (strLower text) "semester" = true →
      (extract_fee_info text).period = "semester" := by
    intro text h
    simp [extract_fee_info, feePeriod, h]
  have hfee3 : ∀ text : String, strContains (strLower text) "semester" = false →
      strContains (strLower text) "month" = true →
      (extract_fee_info text).period = "month" := by
    intro text h1 h2
    simp [extract_fee_info, feePeriod, h1, h2]
  have hfee4 : ∀ text : String, strContains (strLower text) "semester" = false →
      strContains (strLower text) "month" = false →
      (extract_fee_info text).period = "year" := by
    intro text h1 h2
    simp [extract_fee_info, feePeriod, h1, h2]
  have hrank : rankingsStep doc = some [] := by rw [rankingsStep, hnoRank]
  have htui : tuitionStep doc = some [] := by rw [tuitionStep, hnoTuition]
  rw [extract_common_info] at hr
  rcases hh1 : findTag doc "h1" with _ | h1 <;> rw [hh1] at hr
  · simp at hr
  rcases hty : typeStep doc with _ | ut <;> rw [hty] at hr
  · simp at hr
  rcases hloc : locationStep doc with _ | lt <;> rw [hloc] at hr
  · simp at hr
  rcases hdesc : descriptionStep doc with _ | d <;> rw [hdesc] at hr
  · simp at hr
  rw [hrank, htui] at hr
  simp at hr
  rw [← hr]
  exact ⟨rfl, rfl, hfee1, hfee2, hfee3, hfee4⟩

/-- Witness for C9 on a minimal page with a heading and no Rankings or
Tuition sections. -/
theorem C9_fee_and_absence_witness :
    extract_common_info (World.mk 0 []) [HNode.elem "h1" [] [HNode.text "Bilkent University"]] =
      some (CommonInfo.mk "Bilkent University" "Unknown" "Turkey" "Unknown" "" "" [] [])
    ∧ findDivWithString [HNode.elem "h1" [] [HNode.text "Bilkent University"]] "Rankings" = none
    ∧ findDivWithString [HNode.elem "h1" [] [HNode.text "Bilkent University"]] "Tuition fees" =
        none
    ∧ (CommonInfo.mk "Bilkent University" "Unknown" "Turkey" "Unknown" "" "" []
        ([] : List (String × FeeInfo))).rankings = []
    ∧ (extract_fee_info "3,500 per year for the Bachelor").currency = "USD" :=
  ⟨by decide, by decide, by decide,
    (C9_fee_and_absence (World.mk 0 [])
      [HNode.elem "h1" [] [HNode.text "Bilkent University"]]
      (CommonInfo.mk "Bilkent University" "Unknown" "Turkey" "Unknown" "" "" [] [])
      (by decide) (by decide) (by decide)).1,
    (C9_fee_and_absence (World.mk 0 [])
      [HNode.elem "h1" [] [HNode.text "Bilkent University"]]
      (CommonInfo.mk "Bilkent University" "Unknown" "Turkey" "Unknown" "" "" [] [])
      (by decide) (by decide) (by decide)).2.2.1 "3,500 per year for the Bachelor" (by decide)⟩
